import Mathlib

/-!
# The poll loop of `chatbot.go`

A shallow embedding of `src/chatbot.go`.  Go strings are byte sequences, so a
`GoString` is a list of bytes.  Every call that leaves the process (the GET of
the group, the completion request, the POST of the answer, the clock) takes the
reply of the outside world as an explicit argument and records what it sent in
a list of `Effect`s; `log.Fatal` and run-time panics are values of `Outcome`.

The functions of the Go standard library that `main` calls (`strings.Contains`,
`strings.ReplaceAll`, `strings.TrimSpace`, the `unicode/utf8` decoders they rest
on) are not part of the repository; they are transcribed from the Go sources of
the `strings`, `unicode` and `unicode/utf8` packages.
-/

namespace Chatbot

/-! ## Strings -/

/-- A Go `byte`. -/
abbrev Byte := Fin 256

/-- A Go `string`: an immutable sequence of bytes. -/
abbrev GoString := List Byte

/-- The bytes of a string literal of the source file (Go source text is UTF-8). -/
def lit (s : String) : GoString :=
  (s.toList.flatMap String.utf8EncodeChar).map (fun b => b.val)

/-- Three-way comparison of Go strings (`runtime.cmpstring`): the bytes are
compared pairwise over the common length, and on a tie the shorter string is
the smaller one. -/
def cmpstring : GoString → GoString → Int
  | [], [] => 0
  | [], _ :: _ => -1
  | _ :: _, [] => 1
  | a :: as, b :: bs => if a < b then -1 else if b < a then 1 else cmpstring as bs

/-- The Go expression `a > b` on strings. -/
def stringGt (a b : GoString) : Bool := decide (0 < cmpstring a b)

/-- The Go slice expression `s[low:high]`. -/
def slice (s : GoString) (low high : Nat) : GoString := (s.take high).drop low

/-- Go `strings.HasPrefix`: `len(s) >= len(p) && s[:len(p)] == p`. -/
def HasPrefix (s p : GoString) : Bool :=
  decide (p.length ≤ s.length) && decide (s.take p.length = p)

/-- Go `strings.Index`: the index of the first instance of `substr` in `s`, or
`-1` if `substr` is not present in `s`.  The library searches with several
strategies picked by the lengths; this is the result they all compute, found
by trying the positions from the left. -/
def Index : GoString → GoString → Int
  | [], substr => if substr = [] then 0 else -1
  | c :: cs, substr =>
    if HasPrefix (c :: cs) substr then 0
    else
      let i := Index cs substr
      if i < 0 then -1 else i + 1

/-- Go `strings.Contains`: `Index(s, substr) >= 0`. -/
def Contains (s substr : GoString) : Bool := decide (0 ≤ Index s substr)

/-! ## `unicode/utf8` and `unicode` -/

/-- Go `utf8.RuneError`, the replacement character U+FFFD.  A Go `rune` (`int32`)
is an `Int` here; every rune computed below lies in `[0, 0x1FFFFF]`. -/
def RuneError : Int := 0xFFFD

/-- Go `utf8.RuneSelf`: bytes below it are runes of their own. -/
def RuneSelf : Nat := 0x80

/-- Go `utf8.UTFMax`: the longest encoding of a rune, in bytes. -/
def UTFMax : Nat := 4

/-- The table `first` of `unicode/utf8`: information about the first byte of a
sequence.  The high nibble indexes `acceptRanges` (or is `F` for the one-byte
cases), the low nibble is the length; `0xF0` is ASCII, `0xF1` is invalid. -/
def first (b : Nat) : Nat :=
  if b < 0x80 then 0xF0        -- as
  else if b < 0xC2 then 0xF1   -- xx
  else if b < 0xE0 then 0x02   -- s1
  else if b = 0xE0 then 0x13   -- s2
  else if b < 0xED then 0x03   -- s3
  else if b = 0xED then 0x23   -- s4
  else if b < 0xF0 then 0x03   -- s3
  else if b = 0xF0 then 0x34   -- s5
  else if b < 0xF4 then 0x04   -- s6
  else if b = 0xF4 then 0x44   -- s7
  else 0xF1                    -- xx

/-- The table `acceptRanges` of `unicode/utf8`: the range of the second byte. -/
def acceptRanges (i : Nat) : Nat × Nat :=
  match i with
  | 0 => (0x80, 0xBF)
  | 1 => (0xA0, 0xBF)
  | 2 => (0x80, 0x9F)
  | 3 => (0x90, 0xBF)
  | 4 => (0x80, 0x8F)
  | _ => (0, 0)

/-- Go `utf8.DecodeRuneInString`: the first rune of `s` and its width in bytes;
`(RuneError, 0)` on the empty string and `(RuneError, 1)` on an invalid
encoding.  In the one-byte branch the source selects between `s[0]` and
`RuneError` with a mask made of the lowest bit of `x`. -/
def DecodeRuneInString (s : GoString) : Int × Nat :=
  match s with
  | [] => (RuneError, 0)
  | s0 :: t =>
    let x := first s0.val
    if 0xF0 ≤ x then
      if x % 2 = 0 then ((s0.val : Int), 1) else (RuneError, 1)
    else
      let sz := x &&& 7
      let accept := acceptRanges (x >>> 4)
      if s.length < sz then (RuneError, 1)
      else
        match t with
        | [] => (RuneError, 1)
        | s1 :: t1 =>
          if s1.val < accept.1 ∨ accept.2 < s1.val then (RuneError, 1)
          else if sz ≤ 2 then
            ((((s0.val &&& 0x1F) <<< 6 ||| (s1.val &&& 0x3F) : Nat) : Int), 2)
          else
            match t1 with
            | [] => (RuneError, 1)
            | s2 :: t2 =>
              if s2.val < 0x80 ∨ 0xBF < s2.val then (RuneError, 1)
              else if sz ≤ 3 then
                ((((s0.val &&& 0x0F) <<< 12 ||| (s1.val &&& 0x3F) <<< 6
                    ||| (s2.val &&& 0x3F) : Nat) : Int), 3)
              else
                match t2 with
                | [] => (RuneError, 1)
                | s3 :: _ =>
                  if s3.val < 0x80 ∨ 0xBF < s3.val then (RuneError, 1)
                  else
                    ((((s0.val &&& 0x07) <<< 18 ||| (s1.val &&& 0x3F) <<< 12
                        ||| (s2.val &&& 0x3F) <<< 6 ||| (s3.val &&& 0x3F) : Nat) : Int), 4)

/-- Go `utf8.RuneStart`: `b` is not a continuation byte. -/
def RuneStart (b : Byte) : Bool := decide (b.val &&& 0xC0 ≠ 0x80)

/-- The backwards scan of `DecodeLastRuneInString`:
`for start--; start >= lim; start-- { if RuneStart(s[start]) { break } }`,
entered after the first `start--`; it looks at no more than `UTFMax - 1`
bytes, so `UTFMax` rounds reach its exit. -/
def lastRuneScan (s : GoString) (lim : Int) : Nat → Int → Int
  | 0, start => start
  | fuel + 1, start =>
    if lim ≤ start then
      if RuneStart (s.getD start.toNat 0) then start
      else lastRuneScan s lim fuel (start - 1)
    else start

/-- Go `utf8.DecodeLastRuneInString`: the last rune of `s` and its width. -/
def DecodeLastRuneInString (s : GoString) : Int × Nat :=
  let end_ := s.length
  if end_ = 0 then (RuneError, 0)
  else
    let r : Nat := (s.getD (end_ - 1) 0).val
    if r < RuneSelf then ((r : Int), 1)
    else
      let lim : Int := if (end_ : Int) - UTFMax < 0 then 0 else (end_ : Int) - UTFMax
      let start := lastRuneScan s lim UTFMax ((end_ : Int) - 1 - 1)
      let start := if start < 0 then 0 else start
      let d := DecodeRuneInString (slice s start.toNat end_)
      if start.toNat + d.2 ≠ end_ then (RuneError, 1) else d

/-- The 16-bit ranges `(Lo, Hi, Stride)` of the table `unicode.White_Space`. -/
def White_Space_R16 : List (Nat × Nat × Nat) :=
  [(0x0009, 0x000d, 1), (0x0020, 0x0085, 101), (0x00a0, 0x1680, 5600), (0x2000, 0x200a, 1),
   (0x2028, 0x2029, 1), (0x202f, 0x205f, 48), (0x3000, 0x3000, 1)]

/-- The `LatinOffset` of `unicode.White_Space`: how many of its ranges end
within Latin-1. -/
def White_Space_LatinOffset : Nat := 2

/-- Go `unicode.is16`, the linear search it makes on a table this short:
`if r < Lo { return false }; if r <= Hi { return Stride == 1 ||
(r-Lo)%Stride == 0 }` range after range, and `false` at the end. -/
def is16 : List (Nat × Nat × Nat) → Nat → Bool
  | [], _ => false
  | (lo, hi, stride) :: ranges, r =>
    if r < lo then false
    else if r ≤ hi then decide (stride = 1) || decide ((r - lo) % stride = 0)
    else is16 ranges r

/-- Go `unicode.isExcludingLatin` on `White_Space`, which has no 32-bit ranges. -/
def isExcludingLatin_White_Space (r : Int) : Bool :=
  let r16 := White_Space_R16
  let off := White_Space_LatinOffset
  let u : Int := r % 2 ^ 32
  if off < r16.length ∧ u ≤ ((r16.getD (r16.length - 1) (0, 0, 0)).2.1 : Int) then
    is16 (r16.drop off) (u % 2 ^ 16).toNat
  else false

/-- Go `unicode.IsSpace`. -/
def IsSpace (r : Int) : Bool :=
  if r % 2 ^ 32 ≤ 0xFF then
    decide (r = 9 ∨ r = 10 ∨ r = 11 ∨ r = 12 ∨ r = 13 ∨ r = 32 ∨ r = 0x85 ∨ r = 0xA0)
  else isExcludingLatin_White_Space r

/-- Go `utf8.EncodeRune` (as `utf8.AppendRune`): the UTF-8 encoding of a rune;
surrogates and runes out of range are encoded as `RuneError`. -/
def EncodeRune (r : Int) : GoString :=
  let enc3 (n : Nat) : GoString :=
    [Fin.ofNat (0xE0 ||| n >>> 12), Fin.ofNat (0x80 ||| (n >>> 6 &&& 0x3F)),
     Fin.ofNat (0x80 ||| (n &&& 0x3F))]
  if r < 0 then enc3 0xFFFD
  else
    let n := r.toNat
    if n ≤ 0x7F then [Fin.ofNat n]
    else if n ≤ 0x7FF then [Fin.ofNat (0xC0 ||| n >>> 6), Fin.ofNat (0x80 ||| (n &&& 0x3F))]
    else if 0x10FFFF < n ∨ (0xD800 ≤ n ∧ n ≤ 0xDFFF) then enc3 0xFFFD
    else if n ≤ 0xFFFF then enc3 n
    else
      [Fin.ofNat (0xF0 ||| n >>> 18), Fin.ofNat (0x80 ||| (n >>> 12 &&& 0x3F)),
       Fin.ofNat (0x80 ||| (n >>> 6 &&& 0x3F)), Fin.ofNat (0x80 ||| (n &&& 0x3F))]

/-! ## `strings` -/

/-- Go `utf8.RuneCountInString`, as the number of rounds of `for range s`. -/
def RuneCountInString : Nat → GoString → Nat
  | 0, _ => 0
  | _, [] => 0
  | fuel + 1, c :: cs =>
    1 + RuneCountInString fuel ((c :: cs).drop (DecodeRuneInString (c :: cs)).2)

/-- The loop of Go `strings.Count` for a non-empty `substr`:
`for { i := Index(s, substr); if i == -1 { return n }; n++; s = s[i+len(substr):] }`. -/
def countLoop (substr : GoString) : Nat → GoString → Nat → Nat
  | 0, _, n => n
  | fuel + 1, s, n =>
    let i := Index s substr
    if i = -1 then n
    else countLoop substr fuel (s.drop (i.toNat + substr.length)) (n + 1)

/-- Go `strings.Count`: the number of non-overlapping instances of `substr` in
`s`; for an empty `substr`, one more than the number of runes of `s`.  The
library counts a one-byte `substr` with `bytealg.CountString`, which gives what
the loop gives. -/
def Count (s substr : GoString) : Nat :=
  if substr.length = 0 then RuneCountInString s.length s + 1
  else countLoop substr (s.length + 1) s 0

/-- The loop of Go `strings.Replace` that writes the result: round `i` copies
`s[start:j]` and `new` to the builder `b`, where `j` is the start of the next
instance of `old` (for an empty `old`, one rune further on), and moves `start`
behind it; after the `n` rounds `s[start:]` is copied. -/
def replaceLoop (s old new : GoString) : Nat → Nat → Nat → GoString → GoString
  | 0, _, start, b => b ++ s.drop start
  | n + 1, i, start, b =>
    let j :=
      if old.length = 0 then
        if 0 < i then start + (DecodeRuneInString (s.drop start)).2 else start
      else start + (Index (s.drop start) old).toNat
    replaceLoop s old new n (i + 1) (j + old.length) (b ++ slice s start j ++ new)

/-- Go `strings.Replace`: a copy of `s` with the first `n` non-overlapping
instances of `old` replaced by `new`; all of them if `n < 0`. -/
def Replace (s old new : GoString) (n : Int) : GoString :=
  if old = new ∨ n = 0 then s
  else
    let m := Count s old
    if m = 0 then s
    else
      let n : Nat := if n < 0 ∨ (m : Int) < n then m else n.toNat
      replaceLoop s old new n 0 0 []

/-- Go `strings.ReplaceAll`: `Replace(s, old, new, -1)`. -/
def ReplaceAll (s old new : GoString) : GoString := Replace s old new (-1)

/-- The table `asciiSpace` of `strings`. -/
def asciiSpace (c : Byte) : Bool :=
  decide (c.val = 9 ∨ c.val = 10 ∨ c.val = 11 ∨ c.val = 12 ∨ c.val = 13 ∨ c.val = 32)

/-- Go `strings.indexFunc`: `for i, r := range s { if f(r) == truth { return i } }`
and `-1` after the loop.  The second argument is what is left of the string,
`s[i:]`; `range` decodes like `DecodeRuneInString`. -/
def indexFunc (f : Int → Bool) (truth : Bool) : Nat → GoString → Nat → Int
  | 0, _, _ => -1
  | _, [], _ => -1
  | fuel + 1, c :: cs, i =>
    let d := DecodeRuneInString (c :: cs)
    if f d.1 = truth then (i : Int)
    else indexFunc f truth fuel ((c :: cs).drop d.2) (i + d.2)

/-- Go `strings.lastIndexFunc`:
`for i := len(s); i > 0; { r, size := DecodeLastRuneInString(s[0:i]); i -= size;
if f(r) == truth { return i } }` and `-1` after the loop. -/
def lastIndexFunc (f : Int → Bool) (truth : Bool) (s : GoString) : Nat → Nat → Int
  | 0, _ => -1
  | fuel + 1, i =>
    if 0 < i then
      let d := DecodeLastRuneInString (slice s 0 i)
      let i := i - d.2
      if f d.1 = truth then (i : Int) else lastIndexFunc f truth s fuel i
    else -1

/-- Go `strings.TrimLeftFunc`. -/
def TrimLeftFunc (s : GoString) (f : Int → Bool) : GoString :=
  let i := indexFunc f false s.length s 0
  if i = -1 then [] else s.drop i.toNat

/-- Go `strings.TrimRightFunc`. -/
def TrimRightFunc (s : GoString) (f : Int → Bool) : GoString :=
  let i := lastIndexFunc f false s s.length s.length
  let i :=
    if 0 ≤ i ∧ RuneSelf ≤ (s.getD i.toNat 0).val then
      i + (DecodeRuneInString (s.drop i.toNat)).2
    else i + 1
  slice s 0 i.toNat

/-- Go `strings.TrimFunc`. -/
def TrimFunc (s : GoString) (f : Int → Bool) : GoString :=
  TrimRightFunc (TrimLeftFunc s f) f

/-- The second loop of Go `strings.TrimSpace`, on `s[start:]` read from its end
(the argument is `s[start:stop]` reversed):
`for ; stop > start; stop-- { c := s[stop-1]; if c >= utf8.RuneSelf { return
TrimRightFunc(s[start:stop], unicode.IsSpace) }; if asciiSpace[c] == 0 { break } }`
and `return s[start:stop]`. -/
def trimSpaceStop : GoString → GoString
  | [] => []
  | c :: rest =>
    if RuneSelf ≤ c.val then TrimRightFunc (c :: rest).reverse IsSpace
    else if asciiSpace c then trimSpaceStop rest
    else (c :: rest).reverse

/-- Go `strings.TrimSpace`.  The first loop,
`for ; start < len(s); start++ { c := s[start]; if c >= utf8.RuneSelf { return
TrimFunc(s[start:], unicode.IsSpace) }; if asciiSpace[c] == 0 { break } }`,
runs down the list, which is `s[start:]`; the second loop is `trimSpaceStop`. -/
def TrimSpace : GoString → GoString
  | [] => trimSpaceStop []
  | c :: cs =>
    if RuneSelf ≤ c.val then TrimFunc (c :: cs) IsSpace
    else if asciiSpace c then TrimSpace cs
    else trimSpaceStop (c :: cs).reverse

/-! ## The data of `chatbot.go` -/

/-- The constant `rootURL`. -/
def rootURL : GoString := lit "https://api.groupme.com/v3"

/-- Message attachment. -/
structure Attachment where
  Type_ : GoString
  Url : GoString
  Lat : GoString
  Lng : GoString
  Name : GoString
  Token : GoString
  Placeholder : GoString
  Charmap : List (List Int)

/-- Message preview. -/
structure Preview where
  Nickname : GoString
  Text : GoString
  Image_url : GoString
  Attachment : List Attachment

/-- Messages info. -/
structure Messages where
  Count : Int
  Last_Message_Id : GoString
  Last_Message_Created_At : Int
  Preview : Preview

/-- Member data. -/
structure Member where
  UserId : GoString
  Nickname : GoString

/-- Group response. -/
structure Response where
  Id : GoString
  Group_Id : GoString
  Name : GoString
  Phone_Number : GoString
  Pinned : Bool
  Type_ : GoString
  Description : GoString
  Image_url : GoString
  Creator_User_Id : GoString
  Created_At : Int
  Updated_At : Int
  Muted_Until : Int
  Office_Mode : Bool
  Messages : Messages
  Member : List Member

/-- Metadata: the response code. -/
structure Meta where
  Code : Int

/-- A group as the chat service describes it: the snapshot the loop compares. -/
structure Group where
  Meta : Meta
  Response : Response

/-- The five keys `main` reads from `chatbot.ini`. -/
structure Config where
  token : GoString
  groupId : GoString
  gpt_token : GoString
  chatbot_name : GoString
  trigger_word : GoString

/-- The fields of `gogpt.CompletionRequest` that `completeText` sets; the
sampling constants are kept as the decimal constants of the source. -/
structure CompletionRequest where
  MaxTokens : Int
  Temperature : ℚ
  TopP : ℚ
  FrequencyPenalty : ℚ
  PresencePenalty : ℚ
  Prompt : GoString

/-- One generated alternative of a `gogpt.CompletionResponse`. -/
structure CompletionChoice where
  Text : GoString

/-- The part of `gogpt.CompletionResponse` that `completeText` reads. -/
structure CompletionResponse where
  Choices : List CompletionChoice

/-! ## The outside world -/

/-- What `http.Get` and the JSON decoder give `getNewestMessage`. -/
inductive GetReply where
  /-- `http.Get` returned an error. -/
  | transportError
  /-- The body did not decode into a `Group`. -/
  | jsonError
  /-- The body decoded into `groups`. -/
  | ok (groups : Group)

/-- What `c.CreateCompletion` returns: an error, or a response. -/
inductive CompletionReply where
  | error (err : GoString)
  | ok (resp : CompletionResponse)

/-- What `http.Post` returns; the response itself is discarded by the source. -/
inductive PostReply where
  | transportError
  | ok

/-- What one round of the loop may be told by the outside world; a reply is
read only if the round makes the call. -/
structure World where
  get : GetReply
  completion : CompletionReply
  now : Int
  post : PostReply

/-- A call that leaves the process, in the order made. -/
inductive Effect where
  /-- `http.Get(url)`, with what came back. -/
  | httpGet (url : GoString) (reply : GetReply)
  /-- `c.CreateCompletion(ctx, model, req)`. -/
  | createCompletion (model : GoString) (req : CompletionRequest)
  /-- `http.Post(url, contentType, body)`. -/
  | httpPost (url contentType body : GoString)
  /-- `time.Sleep(d)`, `d` in nanoseconds. -/
  | sleep (d : Int)

/-- How a call ends: it returns, the process exits (`log.Fatal` is
`os.Exit(1)` after logging), or a run-time panic unwinds it. -/
inductive Outcome (α : Type) where
  | ret (a : α)
  | exit (code : Nat)
  | panic

/-! ## The functions of `chatbot.go` -/

/-- Go `time.Second`, in nanoseconds. -/
def Second : Int := 1000000000

/-- The function `getNewestMessage`: GET the group, decode it; fatal on a
transport error and on a body that does not decode. -/
def getNewestMessage (groupId token : GoString) (reply : GetReply) :
    List Effect × Outcome Group :=
  let requestURL := rootURL ++ lit "/groups/" ++ groupId ++ lit "?token=" ++ token
  match reply with
  | .transportError => ([.httpGet requestURL reply], .exit 1)
  | .jsonError => ([.httpGet requestURL reply], .exit 1)
  | .ok groups => ([.httpGet requestURL reply], .ret groups)

/-- The function `hasNewMessage`: fetch the group and compare the ids. -/
def hasNewMessage (groupId token : GoString) (lastMessage : Group) (reply : GetReply) :
    List Effect × Outcome (Bool × Group) :=
  match getNewestMessage groupId token reply with
  | (es, .ret newestMessage) =>
    (es, .ret (stringGt newestMessage.Response.Messages.Last_Message_Id
      lastMessage.Response.Messages.Last_Message_Id, newestMessage))
  | (es, .exit code) => (es, .exit code)
  | (es, .panic) => (es, .panic)

/-- The request `completeText` builds around `text`. -/
def completionRequest (text : GoString) : CompletionRequest where
  MaxTokens := 60
  Temperature := 0.5
  TopP := 0.3
  FrequencyPenalty := 0.5
  PresencePenalty := 0.0
  Prompt :=
    lit "Marv is a chatbot that reluctantly answers questions with sarcastic responses:\n\nYou: "
      ++ text ++ lit "\nMarv: "

/-- The function `completeText`; the client and the context are the fixed ones
of `main`.  The result is the Go pair `(string, error)`, `none` for a `nil`
error; `resp.Choices[0]` panics on an empty slice. -/
def completeText (text : GoString) (reply : CompletionReply) :
    List Effect × Outcome (GoString × Option GoString) :=
  let req := completionRequest text
  let es := [Effect.createCompletion (lit "text-davinci-002") req]
  match reply with
  | .error err => (es, .ret ([], some err))
  | .ok resp =>
    match resp.Choices with
    | [] => (es, .panic)
    | c :: _ => (es, .ret (c.Text, none))

/-- The body `sendMessageToGroup` formats:
`fmt.Sprintf` of `\x7b"message":\x7b"source_guid":"%d","text":"%s"\x7d\x7d`. -/
def messageBody (guid : Int) (message : GoString) : GoString :=
  lit "\x7b\"message\":\x7b\"source_guid\":\"" ++ lit (toString guid)
    ++ lit "\",\"text\":\"" ++ message ++ lit "\"\x7d\x7d"

/-- The function `sendMessageToGroup`; `now` is `time.Now().UnixNano()`. -/
def sendMessageToGroup (groupId token message : GoString) (now : Int) (reply : PostReply) :
    List Effect × Outcome Unit :=
  let requestURL := rootURL ++ lit "/groups/" ++ groupId ++ lit "/messages?token=" ++ token
  let guid := now
  let messageBody := messageBody guid message
  let es := [Effect.httpPost requestURL (lit "application/json") messageBody]
  match reply with
  | .transportError => (es, .exit 1)
  | .ok => (es, .ret ())

/-- One round of the `for` loop of `main`: what it did, the value of the
variable `newestMessage` at its end, and how it ended. -/
structure Round where
  effects : List Effect
  newestMessage : Group
  outcome : Outcome Unit

/-- The body of the `for` loop of `main`. -/
def loopBody (cfg : Config) (newestMessage : Group) (w : World) : Round :=
  match hasNewMessage cfg.groupId cfg.token newestMessage w.get with
  | (es, .exit code) => ⟨es, newestMessage, .exit code⟩
  | (es, .panic) => ⟨es, newestMessage, .panic⟩
  | (es, .ret (newMessagePresent, msg)) =>
    if newMessagePresent then
      let newestMessage := msg
      let msgText := msg.Response.Messages.Preview.Text
      let msgSender := msg.Response.Messages.Preview.Nickname
      if !Contains msgSender cfg.chatbot_name then
        if Contains msgText cfg.trigger_word then
          let userPrompt := ReplaceAll msgText cfg.trigger_word []
          match completeText userPrompt w.completion with
          | (es1, .exit code) => ⟨es ++ es1, newestMessage, .exit code⟩
          | (es1, .panic) => ⟨es ++ es1, newestMessage, .panic⟩
          | (es1, .ret (_, some _)) => ⟨es ++ es1, newestMessage, .exit 1⟩
          | (es1, .ret (response, none)) =>
            match sendMessageToGroup cfg.groupId cfg.token (TrimSpace response) w.now w.post with
            | (es2, o) => ⟨es ++ es1 ++ es2, newestMessage, o⟩
        else ⟨es, newestMessage, .ret ()⟩
      else ⟨es, newestMessage, .ret ()⟩
    else ⟨es ++ [.sleep Second], newestMessage, .ret ()⟩

/-- The `for` loop of `main` over the replies of finitely many rounds: it
stops where a round exits or panics, and is still running (`ret`) when the
replies are used up. -/
def mainLoop (cfg : Config) : Group → List World → Round
  | newestMessage, [] => ⟨[], newestMessage, .ret ()⟩
  | newestMessage, w :: ws =>
    let r := loopBody cfg newestMessage w
    match r.outcome with
    | .ret _ =>
      let r' := mainLoop cfg r.newestMessage ws
      ⟨r.effects ++ r'.effects, r'.newestMessage, r'.outcome⟩
    | _ => r

/-- A run of `main` once `chatbot.ini` is read. -/
structure Run where
  effects : List Effect
  newestMessage : Option Group
  outcome : Outcome Unit

/-- The function `main` after the configuration is loaded: the startup fetch,
then the loop. -/
def main (cfg : Config) (startup : GetReply) (ws : List World) : Run :=
  match getNewestMessage cfg.groupId cfg.token startup with
  | (es, .ret newestMessage) =>
    let r := mainLoop cfg newestMessage ws
    ⟨es ++ r.effects, some r.newestMessage, r.outcome⟩
  | (es, .exit code) => ⟨es, none, .exit code⟩
  | (es, .panic) => ⟨es, none, .panic⟩

/-! ## Reading a trace -/

/-- The effect is a completion call. -/
def Effect.isCompletion : Effect → Bool
  | .createCompletion _ _ => true
  | _ => false

/-- The effect is a POST. -/
def Effect.isPost : Effect → Bool
  | .httpPost _ _ _ => true
  | _ => false

/-- The snapshots a trace fetched, in order. -/
def fetched (es : List Effect) : List Group :=
  es.filterMap fun e =>
    match e with
    | .httpGet _ (.ok g) => some g
    | _ => none

/-- The last-message id of a snapshot. -/
def Group.id (g : Group) : GoString := g.Response.Messages.Last_Message_Id

/-- The pieces of `s` between the instances of `old` that the loops of `Count`
and `Replace` find: the text before the first instance, then the pieces of
what follows it. -/
def piecesOf (old : GoString) : Nat → GoString → List GoString
  | 0, s => [s]
  | fuel + 1, s =>
    let i := Index s old
    if i = -1 then [s]
    else s.take i.toNat :: piecesOf old fuel (s.drop (i.toNat + old.length))

/-- The split a left-to-right scan for `trigger` makes of a text: the piece
before the first instance of `trigger`, the instance being the leftmost one
(no instance starts earlier, so none lies in the piece followed by all but the
last byte of `trigger`), then the split of what follows that instance; a text
without `trigger` is its own single piece. -/
inductive LeftScan (trigger : GoString) : GoString → List GoString → Prop where
  | last (p : GoString) : ¬ trigger <:+: p → LeftScan trigger p [p]
  | step (p rest : GoString) (ps : List GoString) :
      ¬ trigger <:+: p ++ trigger.dropLast → LeftScan trigger rest ps →
      LeftScan trigger (p ++ trigger ++ rest) (p :: ps)

/-- A snapshot with the given last-message id, sender and text, every other
field at its zero value. -/
def snapshot (id nickname text : GoString) : Group where
  Meta := ⟨0⟩
  Response :=
    { Id := [], Group_Id := [], Name := [], Phone_Number := [], Pinned := false, Type_ := [],
      Description := [], Image_url := [], Creator_User_Id := [], Created_At := 0,
      Updated_At := 0, Muted_Until := 0, Office_Mode := false,
      Messages :=
        { Count := 0, Last_Message_Id := id, Last_Message_Created_At := 0,
          Preview := { Nickname := nickname, Text := text, Image_url := [], Attachment := [] } },
      Member := [] }

/-! ## Well-formed sequences and white space -/

/-- The value of a two-byte sequence. -/
def val2 (s0 s1 : Byte) : Int := (((s0.val % 32) * 64 + s1.val % 64 : Nat) : Int)

/-- The value of a three-byte sequence. -/
def val3 (s0 s1 s2 : Byte) : Int :=
  (((s0.val % 16) * 4096 + (s1.val % 64) * 64 + s2.val % 64 : Nat) : Int)

/-- The value of a four-byte sequence. -/
def val4 (s0 s1 s2 s3 : Byte) : Int :=
  (((s0.val % 8) * 262144 + (s1.val % 64) * 4096 + (s2.val % 64) * 64 + s3.val % 64 : Nat) : Int)

/-- The bytes `s0 s1` are a well-formed two-byte sequence. -/
def Valid2 (s0 s1 : Byte) : Prop :=
  0xC2 ≤ s0.val ∧ s0.val ≤ 0xDF ∧ 0x80 ≤ s1.val ∧ s1.val ≤ 0xBF

/-- The bytes `s0 s1 s2` are a well-formed three-byte sequence. -/
def Valid3 (s0 s1 s2 : Byte) : Prop :=
  0xE0 ≤ s0.val ∧ s0.val ≤ 0xEF ∧ 0x80 ≤ s1.val ∧ s1.val ≤ 0xBF ∧
  (s0.val = 0xE0 → 0xA0 ≤ s1.val) ∧ (s0.val = 0xED → s1.val ≤ 0x9F) ∧
  0x80 ≤ s2.val ∧ s2.val ≤ 0xBF

/-- The bytes `s0 s1 s2 s3` are a well-formed four-byte sequence. -/
def Valid4 (s0 s1 s2 s3 : Byte) : Prop :=
  0xF0 ≤ s0.val ∧ s0.val ≤ 0xF4 ∧ 0x80 ≤ s1.val ∧ s1.val ≤ 0xBF ∧
  (s0.val = 0xF0 → 0x90 ≤ s1.val) ∧ (s0.val = 0xF4 → s1.val ≤ 0x8F) ∧
  0x80 ≤ s2.val ∧ s2.val ≤ 0xBF ∧ 0x80 ≤ s3.val ∧ s3.val ≤ 0xBF

/-- A rune (a value of `int32`) that `unicode.IsSpace` accepts. -/
def IsWhite (r : Int) : Prop := -2 ^ 31 ≤ r ∧ r < 2 ^ 31 ∧ IsSpace r = true

/-- The string is made of encodings of white-space runes only. -/
def AllSpace (s : GoString) : Prop :=
  ∃ rs : List Int, (∀ r ∈ rs, IsWhite r) ∧ s = rs.flatMap EncodeRune

/-- The string begins with the encoding of a white-space rune. -/
def BeginsWithSpace (s : GoString) : Prop :=
  ∃ r rest, IsWhite r ∧ s = EncodeRune r ++ rest

/-- The string ends with the encoding of a white-space rune. -/
def EndsWithSpace (s : GoString) : Prop :=
  ∃ r init, IsWhite r ∧ s = init ++ EncodeRune r

/-! ## Reading the body back -/

/-- The value of a hexadecimal digit. -/
def hexDigit (b : Byte) : Option Nat :=
  if 0x30 ≤ b.val ∧ b.val ≤ 0x39 then some (b.val - 0x30)
  else if 0x41 ≤ b.val ∧ b.val ≤ 0x46 then some (b.val - 0x41 + 10)
  else if 0x61 ≤ b.val ∧ b.val ≤ 0x66 then some (b.val - 0x61 + 10)
  else none

/-- Four hexadecimal digits, as after `\u` in a JSON string. -/
def hex4 : GoString → Option (Nat × GoString)
  | a :: b :: c :: d :: rest =>
    match hexDigit a, hexDigit b, hexDigit c, hexDigit d with
    | some a, some b, some c, some d => some (((a * 16 + b) * 16 + c) * 16 + d, rest)
    | _, _, _, _ => none
  | _ => none

/-- The character a two-character JSON escape stands for (RFC 8259, section 7). -/
def simpleEscape (e : Byte) : Option Byte :=
  if e.val = 0x22 then some 0x22        -- quotation mark
  else if e.val = 0x5C then some 0x5C   -- reverse solidus
  else if e.val = 0x2F then some 0x2F   -- solidus
  else if e.val = 0x62 then some 0x08   -- b
  else if e.val = 0x66 then some 0x0C   -- f
  else if e.val = 0x6E then some 0x0A   -- n
  else if e.val = 0x72 then some 0x0D   -- r
  else if e.val = 0x74 then some 0x09   -- t
  else none

/-- A JSON string literal after its opening quotation mark (RFC 8259, section
7): the text it stands for, collected in `acc`, and what follows the closing
quotation mark; `none` when the literal is not closed, holds a control
character, or holds an escape that is none.  A `\u` pair of surrogates is one
code point; a lone surrogate is read as U+FFFD. -/
def jsonStringTail : Nat → GoString → GoString → Option (GoString × GoString)
  | 0, _, _ => none
  | _ + 1, [], _ => none
  | fuel + 1, c :: cs, acc =>
    if c.val = 0x22 then some (acc, cs)
    else if c.val < 0x20 then none
    else if c.val = 0x5C then
      match cs with
      | [] => none
      | e :: es =>
        if e.val = 0x75 then
          match hex4 es with
          | none => none
          | some (u, es1) =>
            if 0xD800 ≤ u ∧ u < 0xDC00 then
              match es1 with
              | b1 :: b2 :: es2 =>
                if b1.val = 0x5C ∧ b2.val = 0x75 then
                  match hex4 es2 with
                  | some (v, es3) =>
                    if 0xDC00 ≤ v ∧ v < 0xE000 then
                      jsonStringTail fuel es3
                        (acc ++ EncodeRune ((0x10000 + (u - 0xD800) * 0x400 + (v - 0xDC00) : Nat) : Int))
                    else jsonStringTail fuel es1 (acc ++ EncodeRune (u : Int))
                  | none => jsonStringTail fuel es1 (acc ++ EncodeRune (u : Int))
                else jsonStringTail fuel es1 (acc ++ EncodeRune (u : Int))
              | _ => jsonStringTail fuel es1 (acc ++ EncodeRune (u : Int))
            else jsonStringTail fuel es1 (acc ++ EncodeRune (u : Int))
        else
          match simpleEscape e with
          | some b => jsonStringTail fuel es (acc ++ [b])
          | none => none
    else jsonStringTail fuel cs (acc ++ [c])

/-- What is left of `s` after the literal text `p`, if `s` starts with it. -/
def afterText (p s : GoString) : Option GoString :=
  if HasPrefix s p then some (s.drop p.length) else none

/-- A reader of the JSON document `sendMessageToGroup` means to send,
`\x7b"message":\x7b"source_guid":"<guid>","text":"<text>"\x7d\x7d` written
without white space between the tokens, as the format string writes it: the
two strings the document holds for `source_guid` and `text`, or `none` when
the bytes are not such a document. -/
def decodeMessageBody (body : GoString) : Option (GoString × GoString) :=
  match afterText (lit "\x7b\"message\":\x7b\"source_guid\":\"") body with
  | none => none
  | some s1 =>
    match jsonStringTail s1.length s1 [] with
    | none => none
    | some (guid, s2) =>
      match afterText (lit ",\"text\":\"") s2 with
      | none => none
      | some s3 =>
        match jsonStringTail s3.length s3 [] with
        | none => none
        | some (text, s4) => if s4 = lit "\x7d\x7d" then some (guid, text) else none

/-! ## String comparison -/

theorem cmpstring_pos_iff (a b : GoString) :
    0 < cmpstring b a ↔ List.Lex (· < ·) a b := by
  induction a generalizing b with
  | nil =>
    cases b with
    | nil => simp [cmpstring]
    | cons y ys => simp [cmpstring, List.Lex.nil]
  | cons x xs ih =>
    cases b with
    | nil => simp [cmpstring]
    | cons y ys =>
      simp only [cmpstring]
      by_cases h1 : y < x
      · have : ¬ List.Lex (· < ·) (x :: xs) (y :: ys) := by
          intro h
          cases h with
          | cons h => exact lt_irrefl _ h1
          | rel h => exact lt_asymm h h1
        simp [h1, this]
      · by_cases h2 : x < y
        · simp [h1, h2, List.Lex.rel h2]
        · have hxy : x = y := le_antisymm (not_lt.mp h1) (not_lt.mp h2)
          subst hxy
          simp only [h1, if_false, ih ys]
          constructor
          · exact List.Lex.cons
          · intro h
            cases h with
            | cons h => exact h
            | rel h => exact absurd h h1

theorem stringGt_iff_lex (a b : GoString) :
    stringGt b a = true ↔ List.Lex (· < ·) a b := by
  simp [stringGt, cmpstring_pos_iff]

theorem stringGt_iff_lt (a b : GoString) : stringGt b a = true ↔ a < b := by
  rw [stringGt_iff_lex]; exact Iff.rfl

/-! ## `Index` and `Contains` -/

theorem HasPrefix_iff (s p : GoString) : HasPrefix s p = true ↔ p <+: s := by
  simp only [HasPrefix, Bool.and_eq_true, decide_eq_true_eq]
  constructor
  · rintro ⟨_, h⟩
    exact List.prefix_iff_eq_take.mpr h.symm
  · intro h
    exact ⟨h.length_le, (List.prefix_iff_eq_take.mp h).symm⟩

theorem Index_spec (s substr : GoString) :
    (Index s substr = -1 ∧ ∀ k, ¬ substr <+: s.drop k) ∨
    (∃ n : Nat, Index s substr = n ∧ substr <+: s.drop n ∧ ∀ k < n, ¬ substr <+: s.drop k) := by
  induction s with
  | nil =>
    by_cases h : substr = []
    · right
      exact ⟨0, by simp [Index, h], by simp [h], by simp⟩
    · left
      refine ⟨by simp [Index, h], ?_⟩
      intro k hk
      simp at hk
      exact h hk
  | cons c cs ih =>
    by_cases hp : HasPrefix (c :: cs) substr = true
    · right
      exact ⟨0, by simp [Index, hp], by simpa using (HasPrefix_iff _ _).mp hp, by simp⟩
    · have hp' : ¬ substr <+: c :: cs := fun h => hp ((HasPrefix_iff _ _).mpr h)
      rcases ih with ⟨h1, h2⟩ | ⟨n, h1, h2, h3⟩
      · left
        refine ⟨by simp [Index, hp, h1], ?_⟩
        intro k
        cases k with
        | zero => simpa using hp'
        | succ k => simpa using h2 k
      · right
        refine ⟨n + 1, ?_, by simpa using h2, ?_⟩
        · simp only [Index, hp, h1]
          have : ¬ ((n : Int) < 0) := by omega
          simp [this]
        · intro k hk
          cases k with
          | zero => simpa using hp'
          | succ k => simpa using h3 k (by omega)

theorem infix_iff_prefix_drop (s substr : GoString) :
    substr <:+: s ↔ ∃ k, substr <+: s.drop k := by
  constructor
  · rintro ⟨a, b, rfl⟩
    exact ⟨a.length, by simp⟩
  · rintro ⟨k, h⟩
    exact h.isInfix.trans (List.drop_suffix k s).isInfix

theorem Contains_iff (s substr : GoString) : Contains s substr = true ↔ substr <:+: s := by
  rw [infix_iff_prefix_drop]
  simp only [Contains, decide_eq_true_eq]
  rcases Index_spec s substr with ⟨h1, h2⟩ | ⟨n, h1, h2, _⟩
  · rw [h1]
    constructor
    · intro h; omega
    · rintro ⟨k, hk⟩; exact absurd hk (h2 k)
  · rw [h1]
    exact ⟨fun _ => ⟨n, h2⟩, fun _ => by omega⟩

theorem Contains_eq_false_iff (s substr : GoString) :
    Contains s substr = false ↔ ¬ substr <:+: s := by
  rw [← Contains_iff]; simp

theorem Index_eq_neg_one_iff (s substr : GoString) :
    Index s substr = -1 ↔ Contains s substr = false := by
  simp only [Contains, decide_eq_false_iff_not]
  rcases Index_spec s substr with ⟨h1, _⟩ | ⟨n, h1, _, _⟩ <;> rw [h1] <;> omega

/-! ## `Count` and `Replace` on a non-empty `old` -/

theorem piecesOf_length_pos (old : GoString) (fuel : Nat) (s : GoString) :
    0 < (piecesOf old fuel s).length := by
  cases fuel with
  | zero => simp [piecesOf]
  | succ fuel =>
    simp only [piecesOf]
    split <;> simp

theorem countLoop_eq (old : GoString) (fuel : Nat) (s : GoString) (n : Nat) :
    countLoop old fuel s n = n + ((piecesOf old fuel s).length - 1) := by
  induction fuel generalizing s n with
  | zero => simp [countLoop, piecesOf]
  | succ fuel ih =>
    simp only [countLoop, piecesOf]
    by_cases h : Index s old = -1
    · simp [h]
    · simp only [h, if_false, ih, List.length_cons]
      have hpos := piecesOf_length_pos old fuel
        (List.drop ((Index s old).toNat + old.length) s)
      omega

theorem replaceLoop_eq (s old : GoString) (hold : old ≠ []) (fuel : Nat) (i start : Nat)
    (b : GoString) :
    replaceLoop s old [] ((piecesOf old fuel (s.drop start)).length - 1) i start b
      = b ++ (piecesOf old fuel (s.drop start)).flatten := by
  have hlen : old.length ≠ 0 := by simpa using hold
  induction fuel generalizing i start b with
  | zero => simp [piecesOf, replaceLoop]
  | succ fuel ih =>
    simp only [piecesOf]
    by_cases h : Index (s.drop start) old = -1
    · simp [h, replaceLoop]
    · simp only [h, if_false, List.length_cons, Nat.add_sub_cancel]
      have hpos := piecesOf_length_pos old fuel
        (List.drop ((Index (s.drop start) old).toNat + old.length) (s.drop start))
      obtain ⟨k, hk⟩ : ∃ k, (piecesOf old fuel
          (List.drop ((Index (s.drop start) old).toNat + old.length) (s.drop start))).length
            = k + 1 := ⟨_, (Nat.succ_pred_eq_of_pos hpos).symm⟩
      have hdrop : List.drop ((Index (s.drop start) old).toNat + old.length) (s.drop start)
          = s.drop (start + (Index (s.drop start) old).toNat + old.length) := by
        rw [List.drop_drop]; congr 1; omega
      rw [hk, replaceLoop]
      simp only [hlen, if_false]
      have hk' : k = (piecesOf old fuel
          (s.drop (start + (Index (s.drop start) old).toNat + old.length))).length - 1 := by
        rw [← hdrop, hk]; rfl
      rw [hk', ih, hdrop]
      simp [slice, List.flatten, List.drop_take]

theorem piecesOf_intercalate (old : GoString) (fuel : Nat) (s : GoString) :
    List.intercalate old (piecesOf old fuel s) = s := by
  induction fuel generalizing s with
  | zero => simp [piecesOf, List.intercalate]
  | succ fuel ih =>
    simp only [piecesOf]
    by_cases h : Index s old = -1
    · simp [h, List.intercalate]
    · simp only [h, if_false]
      rcases Index_spec s old with ⟨h1, _⟩ | ⟨n, h1, h2, _⟩
      · exact absurd h1 h
      · rw [h1]
        simp only [Int.toNat_ofNat]
        obtain ⟨t, ht⟩ := h2
        have hrest : List.drop (n + old.length) s = t := by
          rw [← List.drop_drop, ← ht]; simp
        have hpos := piecesOf_length_pos old fuel (List.drop (n + old.length) s)
        have key : List.intercalate old (s.take n :: piecesOf old fuel (List.drop (n + old.length) s))
            = s.take n ++ old ++ List.intercalate old (piecesOf old fuel (List.drop (n + old.length) s)) := by
          cases hp : piecesOf old fuel (List.drop (n + old.length) s) with
          | nil => rw [hp] at hpos; simp at hpos
          | cons p ps => simp [List.intercalate, List.intersperse]
        rw [key, ih, hrest, List.append_assoc, ht, List.take_append_drop]

theorem piecesOf_free (old : GoString) (hold : old ≠ []) (fuel : Nat) (s : GoString)
    (hfuel : s.length < fuel) : ∀ p ∈ piecesOf old fuel s, Contains p old = false := by
  induction fuel generalizing s with
  | zero => omega
  | succ fuel ih =>
    simp only [piecesOf]
    by_cases h : Index s old = -1
    · simp only [h, if_true, List.mem_singleton]
      rintro p rfl
      exact (Index_eq_neg_one_iff _ _).mp h
    · simp only [h, if_false, List.mem_cons]
      rcases Index_spec s old with ⟨h1, _⟩ | ⟨n, h1, h2, h3⟩
      · exact absurd h1 h
      · rw [h1]
        simp only [Int.toNat_ofNat]
        have hlen : 0 < old.length := List.length_pos.mpr hold
        have hle : n + old.length ≤ s.length := by
          have := h2.length_le
          simp only [List.length_drop] at this
          omega
        rintro p (rfl | hp)
        · rw [Contains_eq_false_iff, infix_iff_prefix_drop]
          rintro ⟨k, hk⟩
          have hk1 : old.length ≤ (List.drop k (List.take n s)).length := hk.length_le
          simp only [List.length_drop, List.length_take] at hk1
          have hkn : k < n := by omega
          apply h3 k hkn
          have : List.drop k (List.take n s) <+: List.drop k s := by
            rw [List.drop_take]
            exact List.take_prefix _ _
          exact hk.trans this
        · exact ih _ (by simp only [List.length_drop]; omega) p hp

theorem ReplaceAll_eq_flatten (s old : GoString) (hold : old ≠ []) :
    ReplaceAll s old [] = (piecesOf old (s.length + 1) s).flatten := by
  have hlen : old.length ≠ 0 := by simpa using hold
  simp only [ReplaceAll, Replace, Count, hlen, if_false, countLoop_eq, Nat.zero_add]
  have h0 : ¬ (old = [] ∨ (-1 : Int) = 0) := by simp [hold]
  simp only [h0, if_false]
  by_cases hm : (piecesOf old (s.length + 1) s).length - 1 = 0
  · simp only [hm, if_true]
    have hpos := piecesOf_length_pos old (s.length + 1) s
    have hi := piecesOf_intercalate old (s.length + 1) s
    cases hp : piecesOf old (s.length + 1) s with
    | nil => rw [hp] at hpos; simp at hpos
    | cons p ps =>
      rw [hp] at hm hi
      have : ps = [] := by
        cases ps with
        | nil => rfl
        | cons q qs => simp at hm
      subst this
      simp [List.intercalate] at hi
      simp [hi]
  · simp only [hm, if_false]
    have := replaceLoop_eq s old hold (s.length + 1) 0 0 []
    simpa using this

theorem ReplaceAll_of_not_Contains (s old : GoString) (h : Contains s old = false) :
    ReplaceAll s old [] = s := by
  by_cases hold : old = []
  · simp [ReplaceAll, Replace, hold]
  · rw [ReplaceAll_eq_flatten s old hold]
    have hi : Index s old = -1 := (Index_eq_neg_one_iff _ _).mpr h
    simp [piecesOf, hi]

/-! ## The left-to-right scan of `Replace` -/

theorem drop_prefix_drop {a s : GoString} (h : a <+: s) (k : Nat) :
    a.drop k <+: s.drop k := by
  obtain ⟨u, rfl⟩ := h
  by_cases hk : k ≤ a.length
  · rw [List.drop_append_of_le_length hk]
    exact List.prefix_append _ _
  · rw [List.drop_eq_nil_of_le (by omega)]
    exact List.nil_prefix

theorem piecesOf_fuel (old : GoString) (hold : old ≠ []) (f1 f2 : Nat) (s : GoString)
    (h1 : s.length < f1) (h2 : s.length < f2) : piecesOf old f1 s = piecesOf old f2 s := by
  induction f1 generalizing f2 s with
  | zero => omega
  | succ f1 ih =>
    cases f2 with
    | zero => omega
    | succ f2 =>
      simp only [piecesOf]
      by_cases h : Index s old = -1
      · simp [h]
      · simp only [h, if_false]
        rcases Index_spec s old with ⟨h', _⟩ | ⟨n, hn, hp, _⟩
        · exact absurd h' h
        · rw [hn]
          simp only [Int.toNat_ofNat]
          have hlen : 0 < old.length := List.length_pos.mpr hold
          have hle := hp.length_le
          simp only [List.length_drop] at hle
          congr 1
          exact ih f2 _ (by simp only [List.length_drop]; omega)
            (by simp only [List.length_drop]; omega)

theorem Index_of_leftmost (p old rest : GoString) (hold : old ≠ [])
    (h : ¬ old <:+: p ++ old.dropLast) : Index (p ++ old ++ rest) old = (p.length : Int) := by
  have hlen : 0 < old.length := List.length_pos.mpr hold
  have hat : old <+: (p ++ old ++ rest).drop p.length := by
    rw [List.append_assoc, List.drop_left]
    exact List.prefix_append _ _
  rcases Index_spec (p ++ old ++ rest) old with ⟨_, h2⟩ | ⟨n, hn, hp, hmin⟩
  · exact absurd hat (h2 _)
  · rw [hn]
    congr 1
    by_contra hne
    rcases Nat.lt_or_gt_of_ne hne with hlt | hgt
    · apply h
      have e1 : (p ++ old ++ rest).drop n = p.drop n ++ old ++ rest := by
        rw [List.append_assoc, List.drop_append_of_le_length (by omega), List.append_assoc]
      rw [e1] at hp
      have hq : p.drop n ++ old.dropLast <+: p.drop n ++ old ++ rest := by
        rw [List.append_assoc]
        exact (List.prefix_append_right_inj _).mpr
          ((List.dropLast_prefix old).trans (List.prefix_append _ _))
      have hlen' : old.length ≤ (p.drop n ++ old.dropLast).length := by
        simp only [List.length_append, List.length_drop, List.length_dropLast]
        omega
      have hpre : old <+: p.drop n ++ old.dropLast :=
        List.prefix_of_prefix_length_le hp hq hlen'
      have hsuf : p.drop n ++ old.dropLast <:+ p ++ old.dropLast := by
        refine ⟨p.take n, ?_⟩
        rw [← List.append_assoc, List.take_append_drop]
      exact hpre.isInfix.trans hsuf.isInfix
    · exact hmin p.length hgt hat

theorem ReplaceAll_step (p old rest : GoString) (hold : old ≠ [])
    (h : ¬ old <:+: p ++ old.dropLast) :
    ReplaceAll (p ++ old ++ rest) old [] = p ++ ReplaceAll rest old [] := by
  have hlen : 0 < old.length := List.length_pos.mpr hold
  rw [ReplaceAll_eq_flatten _ _ hold, ReplaceAll_eq_flatten rest _ hold]
  have hi := Index_of_leftmost p old rest hold h
  have hne : ¬ ((p.length : Int) = -1) := by omega
  simp only [piecesOf, hi, hne, if_false, Int.toNat_ofNat]
  have e1 : (p ++ old ++ rest).take p.length = p := by
    rw [List.append_assoc, List.take_left]
  have e2 : (p ++ old ++ rest).drop (p.length + old.length) = rest := by
    rw [← List.length_append, List.drop_left]
  rw [e1, e2, List.flatten_cons]
  congr 2
  exact piecesOf_fuel old hold _ _ rest (by simp only [List.length_append]; omega)
    (Nat.lt_succ_self _)

theorem LeftScan_piecesOf (old : GoString) (hold : old ≠ []) (fuel : Nat) (s : GoString)
    (hfuel : s.length < fuel) : LeftScan old s (piecesOf old fuel s) := by
  induction fuel generalizing s with
  | zero => omega
  | succ fuel ih =>
    simp only [piecesOf]
    by_cases h : Index s old = -1
    · simp only [h, if_true]
      exact LeftScan.last s ((Contains_eq_false_iff _ _).mp ((Index_eq_neg_one_iff _ _).mp h))
    · simp only [h, if_false]
      rcases Index_spec s old with ⟨h', _⟩ | ⟨n, hn, hp, hmin⟩
      · exact absurd h' h
      · rw [hn]
        simp only [Int.toNat_ofNat]
        have hlen : 0 < old.length := List.length_pos.mpr hold
        have hle := hp.length_le
        simp only [List.length_drop] at hle
        obtain ⟨t, ht⟩ := hp
        have hrest : s.drop (n + old.length) = t := by
          rw [← List.drop_drop, ← ht]; simp
        have hs : s.take n ++ old ++ s.drop (n + old.length) = s := by
          rw [hrest, List.append_assoc, ht, List.take_append_drop]
        have hleft : ¬ old <:+: s.take n ++ old.dropLast := by
          intro hin
          obtain ⟨k, hk⟩ := (infix_iff_prefix_drop _ _).mp hin
          have hk1 := hk.length_le
          simp only [List.length_drop, List.length_append, List.length_take,
            List.length_dropLast] at hk1
          have hkn : k < n := by omega
          apply hmin k hkn
          have hq : s.take n ++ old.dropLast <+: s := by
            conv_rhs => rw [← hs]
            rw [List.append_assoc]
            exact (List.prefix_append_right_inj _).mpr
              ((List.dropLast_prefix old).trans (List.prefix_append _ _))
          have := drop_prefix_drop hq k
          exact hk.trans this
        have key := LeftScan.step (s.take n) (s.drop (n + old.length)) _ hleft
          (ih (s.drop (n + old.length)) (by simp only [List.length_drop]; omega))
        rw [hs] at key
        exact key

theorem LeftScan_facts (old : GoString) (hold : old ≠ []) (s : GoString) (ps : List GoString)
    (h : LeftScan old s ps) :
    s = List.intercalate old ps ∧ (∀ p ∈ ps, ¬ old <:+: p) ∧
    ReplaceAll s old [] = ps.flatten := by
  induction h with
  | last p hp =>
    refine ⟨by simp [List.intercalate], by simpa using hp, ?_⟩
    rw [ReplaceAll_of_not_Contains _ _ ((Contains_eq_false_iff _ _).mpr hp)]
    simp
  | step p rest ps hp hs ih =>
    obtain ⟨i1, i2, i3⟩ := ih
    refine ⟨?_, ?_, ?_⟩
    · cases ps with
      | nil => cases hs
      | cons q qs =>
        rw [i1]
        simp [List.intercalate, List.intersperse]
    · intro q hq
      rcases List.mem_cons.mp hq with rfl | hq
      · exact fun hin => hp (hin.trans (List.prefix_append _ _).isInfix)
      · exact i2 q hq
    · rw [ReplaceAll_step p old rest hold hp, i3, List.flatten_cons]

/-! ## One round of the loop -/

theorem loopBody_ok (cfg : Config) (lastSeen B : Group) (c : CompletionReply) (now : Int)
    (p : PostReply) :
    loopBody cfg lastSeen ⟨.ok B, c, now, p⟩ =
      if stringGt B.id lastSeen.id then
        if Contains B.Response.Messages.Preview.Nickname cfg.chatbot_name then
          ⟨[.httpGet (rootURL ++ lit "/groups/" ++ cfg.groupId ++ lit "?token=" ++ cfg.token)
            (.ok B)], B, .ret ()⟩
        else if Contains B.Response.Messages.Preview.Text cfg.trigger_word then
          match c with
          | .error _ =>
            ⟨[.httpGet (rootURL ++ lit "/groups/" ++ cfg.groupId ++ lit "?token=" ++ cfg.token)
                (.ok B),
              .createCompletion (lit "text-davinci-002") (completionRequest
                (ReplaceAll B.Response.Messages.Preview.Text cfg.trigger_word []))],
              B, .exit 1⟩
          | .ok ⟨[]⟩ =>
            ⟨[.httpGet (rootURL ++ lit "/groups/" ++ cfg.groupId ++ lit "?token=" ++ cfg.token)
                (.ok B),
              .createCompletion (lit "text-davinci-002") (completionRequest
                (ReplaceAll B.Response.Messages.Preview.Text cfg.trigger_word []))],
              B, .panic⟩
          | .ok ⟨ch :: _⟩ =>
            ⟨[.httpGet (rootURL ++ lit "/groups/" ++ cfg.groupId ++ lit "?token=" ++ cfg.token)
                (.ok B),
              .createCompletion (lit "text-davinci-002") (completionRequest
                (ReplaceAll B.Response.Messages.Preview.Text cfg.trigger_word [])),
              .httpPost (rootURL ++ lit "/groups/" ++ cfg.groupId ++ lit "/messages?token="
                ++ cfg.token) (lit "application/json") (messageBody now (TrimSpace ch.Text))],
              B, match p with
                 | .transportError => .exit 1
                 | .ok => .ret ()⟩
        else
          ⟨[.httpGet (rootURL ++ lit "/groups/" ++ cfg.groupId ++ lit "?token=" ++ cfg.token)
            (.ok B)], B, .ret ()⟩
      else
        ⟨[.httpGet (rootURL ++ lit "/groups/" ++ cfg.groupId ++ lit "?token=" ++ cfg.token)
          (.ok B), .sleep Second], lastSeen, .ret ()⟩ := by
  simp only [loopBody, hasNewMessage, getNewestMessage, Group.id]
  by_cases h1 : stringGt B.Response.Messages.Last_Message_Id
      lastSeen.Response.Messages.Last_Message_Id = true
  · by_cases h2 : Contains B.Response.Messages.Preview.Nickname cfg.chatbot_name = true
    · simp [h1, h2]
    · by_cases h3 : Contains B.Response.Messages.Preview.Text cfg.trigger_word = true
      · rcases c with err | ⟨_ | ⟨ch, rest⟩⟩
        · simp [h1, h2, h3, completeText]
        · simp [h1, h2, h3, completeText]
        · cases p <;> simp [h1, h2, h3, completeText, sendMessageToGroup]
      · simp [h1, h2, h3]
  · simp [h1]

/-- C1: for every held snapshot `A` and every fetched snapshot `B`,
`hasNewMessage` returns `true` exactly when the last-message id of `B` is
greater than that of `A` in the lexical order of byte strings, and the group it
returns is `B`. -/
theorem hasNewMessage_iff_greater (groupId token : GoString) (A B : Group) :
    ∃ es b, hasNewMessage groupId token A (.ok B) = (es, .ret (b, B)) ∧
      (b = true ↔ List.Lex (· < ·) A.Response.Messages.Last_Message_Id
        B.Response.Messages.Last_Message_Id) :=
  ⟨_, _, rfl, stringGt_iff_lex _ _⟩

/-- C2: in one round of the loop the completion call is made exactly when the
fetched snapshot is new, the sender does not contain the bot name and the text
contains the trigger; a sender containing the bot name, and a text without the
trigger, each give neither a completion call nor a post. -/
theorem loopBody_completion_iff (cfg : Config) (lastSeen B : Group) (c : CompletionReply)
    (now : Int) (p : PostReply) :
    ((loopBody cfg lastSeen ⟨.ok B, c, now, p⟩).effects.any Effect.isCompletion = true ↔
      List.Lex (· < ·) lastSeen.id B.id ∧
      ¬ cfg.chatbot_name <:+: B.Response.Messages.Preview.Nickname ∧
      cfg.trigger_word <:+: B.Response.Messages.Preview.Text) ∧
    (cfg.chatbot_name <:+: B.Response.Messages.Preview.Nickname →
      (loopBody cfg lastSeen ⟨.ok B, c, now, p⟩).effects.any Effect.isCompletion = false ∧
      (loopBody cfg lastSeen ⟨.ok B, c, now, p⟩).effects.any Effect.isPost = false) ∧
    (¬ cfg.trigger_word <:+: B.Response.Messages.Preview.Text →
      (loopBody cfg lastSeen ⟨.ok B, c, now, p⟩).effects.any Effect.isCompletion = false ∧
      (loopBody cfg lastSeen ⟨.ok B, c, now, p⟩).effects.any Effect.isPost = false) := by
  rw [loopBody_ok, ← stringGt_iff_lex, ← Contains_iff, ← Contains_iff]
  cases stringGt B.id lastSeen.id <;>
    cases Contains B.Response.Messages.Preview.Nickname cfg.chatbot_name <;>
    cases Contains B.Response.Messages.Preview.Text cfg.trigger_word <;>
    simp [Effect.isCompletion, Effect.isPost]
  rcases c with err | ⟨_ | ⟨ch, rest⟩⟩ <;> simp [Effect.isCompletion, Effect.isPost]

/-- C2, at a concrete round: the sender "MarvBot" contains the bot name "Marv",
so the new message with the trigger makes neither a completion call nor a post. -/
theorem loopBody_completion_iff_witness :
    lit "Marv" <:+: lit "MarvBot" ∧
    (loopBody ⟨[], [], [], lit "Marv", lit "!marv"⟩ (snapshot (lit "100") [] [])
        ⟨.ok (snapshot (lit "101") (lit "MarvBot") (lit "!marv hi")), .ok ⟨[]⟩, 0, .ok⟩
      ).effects.any Effect.isCompletion = false ∧
    (loopBody ⟨[], [], [], lit "Marv", lit "!marv"⟩ (snapshot (lit "100") [] [])
        ⟨.ok (snapshot (lit "101") (lit "MarvBot") (lit "!marv hi")), .ok ⟨[]⟩, 0, .ok⟩
      ).effects.any Effect.isPost = false :=
  have h : lit "Marv" <:+: lit "MarvBot" := (Contains_iff _ _).mp (by decide)
  ⟨h, (loopBody_completion_iff ⟨[], [], [], lit "Marv", lit "!marv"⟩ (snapshot (lit "100") [] [])
    (snapshot (lit "101") (lit "MarvBot") (lit "!marv hi")) (.ok ⟨[]⟩) 0 .ok).2.1 h⟩

/-- C9: a round whose fetched snapshot has an id that is not greater than the
held one (in particular an equal id, or an empty one) makes no completion call
and no post, keeps the held snapshot, and only sleeps for one second. -/
theorem loopBody_not_greater (cfg : Config) (lastSeen B : Group) (c : CompletionReply)
    (now : Int) (p : PostReply)
    (h : B.id = lastSeen.id ∨ B.id = [] ∨ ¬ List.Lex (· < ·) lastSeen.id B.id) :
    loopBody cfg lastSeen ⟨.ok B, c, now, p⟩ =
      ⟨[.httpGet (rootURL ++ lit "/groups/" ++ cfg.groupId ++ lit "?token=" ++ cfg.token)
        (.ok B), .sleep Second], lastSeen, .ret ()⟩ ∧
    Second = 1000000000 := by
  have h' : ¬ List.Lex (· < ·) lastSeen.id B.id := by
    rcases h with h | h | h
    · rw [h]; exact fun hl => lt_irrefl (α := GoString) _ hl
    · rw [h]; exact List.Lex.not_nil_right _ _
    · exact h
  rw [← stringGt_iff_lex] at h'
  refine ⟨?_, rfl⟩
  rw [loopBody_ok]
  simp [h']

/-- C9, at a concrete round: the same id "100" is fetched again. -/
theorem loopBody_not_greater_witness :
    loopBody ⟨lit "t", lit "7", [], lit "Marv", lit "!marv"⟩
        (snapshot (lit "100") (lit "Alice") (lit "!marv hi"))
        ⟨.ok (snapshot (lit "100") (lit "Alice") (lit "!marv hi")), .ok ⟨[]⟩, 0, .ok⟩ =
      ⟨[.httpGet (rootURL ++ lit "/groups/" ++ lit "7" ++ lit "?token=" ++ lit "t")
        (.ok (snapshot (lit "100") (lit "Alice") (lit "!marv hi"))), .sleep Second],
        snapshot (lit "100") (lit "Alice") (lit "!marv hi"), .ret ()⟩ ∧
    Second = 1000000000 :=
  loopBody_not_greater ⟨lit "t", lit "7", [], lit "Marv", lit "!marv"⟩
    (snapshot (lit "100") (lit "Alice") (lit "!marv hi"))
    (snapshot (lit "100") (lit "Alice") (lit "!marv hi")) (.ok ⟨[]⟩) 0 .ok (Or.inl rfl)

/-- C5: on a text that does not contain the trigger, stripping the trigger is
idempotent: stripping twice equals stripping once, and both give the text. -/
theorem ReplaceAll_idempotent (text trigger : GoString) (h : ¬ trigger <:+: text) :
    ReplaceAll (ReplaceAll text trigger []) trigger [] = ReplaceAll text trigger [] ∧
    ReplaceAll text trigger [] = text := by
  have h1 := ReplaceAll_of_not_Contains text trigger ((Contains_eq_false_iff _ _).mpr h)
  rw [h1]
  exact ⟨h1, rfl⟩

/-- C5, at a concrete text: "tell me a joke" has no "!marv". -/
theorem ReplaceAll_idempotent_witness :
    ¬ lit "!marv" <:+: lit "tell me a joke" ∧
    ReplaceAll (ReplaceAll (lit "tell me a joke") (lit "!marv") []) (lit "!marv") []
      = ReplaceAll (lit "tell me a joke") (lit "!marv") [] ∧
    ReplaceAll (lit "tell me a joke") (lit "!marv") [] = lit "tell me a joke" :=
  have h : ¬ lit "!marv" <:+: lit "tell me a joke" :=
    (Contains_eq_false_iff _ _).mp (by decide)
  ⟨h, ReplaceAll_idempotent (lit "tell me a joke") (lit "!marv") h⟩

/-- C3, refuted as stated: stripping the non-empty trigger "!marv" from
"!ma!marvrv" leaves "!marv", which contains the trigger. -/
theorem ReplaceAll_leaves_trigger :
    lit "!marv" ≠ [] ∧
    ReplaceAll (lit "!ma!marvrv") (lit "!marv") [] = lit "!marv" ∧
    Contains (ReplaceAll (lit "!ma!marvrv") (lit "!marv") []) (lit "!marv") = true := by
  decide

/-- C3, amended: for a non-empty trigger the prompt is the text with the
instances found by one left-to-right, non-overlapping scan removed.  The text
has a split by that scan (each separator is the leftmost instance of the
trigger in what is left, the last piece holds none); for every such split the
text is the pieces joined by the trigger, no piece contains the trigger, and
the prompt is the pieces put together without the separators. -/
theorem ReplaceAll_pieces (text trigger : GoString) (h : trigger ≠ []) :
    (∃ pieces : List GoString, LeftScan trigger text pieces) ∧
    ∀ pieces : List GoString, LeftScan trigger text pieces →
      text = List.intercalate trigger pieces ∧
      (∀ p ∈ pieces, ¬ trigger <:+: p) ∧
      ReplaceAll text trigger [] = pieces.flatten :=
  ⟨⟨_, LeftScan_piecesOf trigger h (text.length + 1) text (Nat.lt_succ_self _)⟩,
    fun pieces hp => LeftScan_facts trigger h text pieces hp⟩

/-- C3 amended, at a concrete text: the scan of "ababa" for "aba" takes the
instance at the start and leaves "ba"; the split is the empty piece and "ba". -/
theorem ReplaceAll_pieces_witness :
    lit "aba" ≠ [] ∧
    LeftScan (lit "aba") (lit "ababa") [[], lit "ba"] ∧
    ReplaceAll (lit "ababa") (lit "aba") [] = lit "ba" :=
  have hs : LeftScan (lit "aba") (lit "ababa") [[], lit "ba"] :=
    (by decide : [] ++ lit "aba" ++ lit "ba" = lit "ababa") ▸
      LeftScan.step [] (lit "ba") [lit "ba"]
        ((Contains_eq_false_iff _ _).mp (by decide))
        (LeftScan.last (lit "ba") ((Contains_eq_false_iff _ _).mp (by decide)))
  ⟨by decide, hs,
    ((ReplaceAll_pieces (lit "ababa") (lit "aba") (by decide)).2 _ hs).2.2.trans (by decide)⟩

/-- C7: `completeText` returns the error of a failed provider call with an
empty text, and the text of the first alternative of a successful one,
untrimmed and with no error; on a successful call with no alternative it
panics at `resp.Choices[0]`. -/
theorem completeText_outcomes (text : GoString) :
    (∀ err, (completeText text (.error err)).2 = .ret ([], some err)) ∧
    (∀ ch rest, (completeText text (.ok ⟨ch :: rest⟩)).2 = .ret (ch.Text, none)) ∧
    (completeText text (.ok ⟨[]⟩)).2 = .panic :=
  ⟨fun _ => rfl, fun _ _ => rfl, rfl⟩

/-- The scenario with the held id "100", the fetched id "101", the sender
"Alice", the text "hey !marv tell me a joke", the trigger "!marv" and a bot
name that "Alice" does not contain: `hasNewMessage` gives `true`, the stripped
prompt is "hey  tell me a joke", the completion call is made with that
prompt, and the body of the POST is `messageBody` of the first alternative of
the completion with the white space around it trimmed. -/
theorem loopBody_scenario (cfg : Config) (A B : Group) (ch : CompletionChoice)
    (rest : List CompletionChoice) (now : Int) (p : PostReply)
    (hA : A.Response.Messages.Last_Message_Id = lit "100")
    (hB : B.Response.Messages.Last_Message_Id = lit "101")
    (hN : B.Response.Messages.Preview.Nickname = lit "Alice")
    (hT : B.Response.Messages.Preview.Text = lit "hey !marv tell me a joke")
    (hW : cfg.trigger_word = lit "!marv")
    (hbot : ¬ cfg.chatbot_name <:+: lit "Alice") :
    (hasNewMessage cfg.groupId cfg.token A (.ok B)).2 = .ret (true, B) ∧
    ReplaceAll B.Response.Messages.Preview.Text cfg.trigger_word [] = lit "hey  tell me a joke" ∧
    (loopBody cfg A ⟨.ok B, .ok ⟨ch :: rest⟩, now, p⟩).effects =
      [.httpGet (rootURL ++ lit "/groups/" ++ cfg.groupId ++ lit "?token=" ++ cfg.token) (.ok B),
       .createCompletion (lit "text-davinci-002") (completionRequest (lit "hey  tell me a joke")),
       .httpPost (rootURL ++ lit "/groups/" ++ cfg.groupId ++ lit "/messages?token=" ++ cfg.token)
         (lit "application/json") (messageBody now (TrimSpace ch.Text))] ∧
    (completionRequest (lit "hey  tell me a joke")).Prompt =
      lit ("Marv is a chatbot that reluctantly answers questions with sarcastic responses:"
        ++ "\n\nYou: hey  tell me a joke\nMarv: ") := by
  have hgt : stringGt B.id A.id = true := by
    simp only [Group.id, hA, hB]; decide
  have hstrip : ReplaceAll (lit "hey !marv tell me a joke") (lit "!marv") []
      = lit "hey  tell me a joke" := by decide
  have hc : Contains (lit "hey !marv tell me a joke") (lit "!marv") = true := by decide
  have hb : Contains (lit "Alice") cfg.chatbot_name = false :=
    (Contains_eq_false_iff _ _).mpr hbot
  refine ⟨?_, ?_, ?_, by decide⟩
  · simp only [hasNewMessage, getNewestMessage]
    rw [show stringGt B.Response.Messages.Last_Message_Id
      A.Response.Messages.Last_Message_Id = true from hgt]
  · rw [hT, hW, hstrip]
  · rw [loopBody_ok, hgt, hN, hT, hW, hb, hc, hstrip]
    simp

/-- C4: the scenario with the bot name "Marv".  With the completion
` say "hi" \n` the first three parts hold (`hasNewMessage` gives `true`, the
stripped prompt is "hey  tell me a joke", the completion call is made with
that prompt) and the text handed on is the trimmed `say "hi"`, but the body
posted holds it unescaped and is not a document of the shape: no text is
posted.  With the completion " Why did the chicken? \n", which needs no
escaping, the text posted is the trimmed "Why did the chicken?". -/
theorem loopBody_scenario_unescaped :
    (hasNewMessage (lit "7") (lit "t") (snapshot (lit "100") [] [])
      (.ok (snapshot (lit "101") (lit "Alice") (lit "hey !marv tell me a joke")))).2
      = .ret (true, snapshot (lit "101") (lit "Alice") (lit "hey !marv tell me a joke")) ∧
    ReplaceAll (lit "hey !marv tell me a joke") (lit "!marv") [] = lit "hey  tell me a joke" ∧
    (loopBody ⟨lit "t", lit "7", [], lit "Marv", lit "!marv"⟩ (snapshot (lit "100") [] [])
      ⟨.ok (snapshot (lit "101") (lit "Alice") (lit "hey !marv tell me a joke")),
        .ok ⟨[⟨lit " say \"hi\" \n"⟩]⟩, 5, .ok⟩).effects =
      [.httpGet (lit "https://api.groupme.com/v3/groups/7?token=t")
        (.ok (snapshot (lit "101") (lit "Alice") (lit "hey !marv tell me a joke"))),
       .createCompletion (lit "text-davinci-002") (completionRequest (lit "hey  tell me a joke")),
       .httpPost (lit "https://api.groupme.com/v3/groups/7/messages?token=t")
         (lit "application/json")
         (lit "\x7b\"message\":\x7b\"source_guid\":\"5\",\"text\":\"say \"hi\"\"\x7d\x7d")] ∧
    TrimSpace (lit " say \"hi\" \n") = lit "say \"hi\"" ∧
    decodeMessageBody
      (lit "\x7b\"message\":\x7b\"source_guid\":\"5\",\"text\":\"say \"hi\"\"\x7d\x7d") = none ∧
    (loopBody ⟨lit "t", lit "7", [], lit "Marv", lit "!marv"⟩ (snapshot (lit "100") [] [])
      ⟨.ok (snapshot (lit "101") (lit "Alice") (lit "hey !marv tell me a joke")),
        .ok ⟨[⟨lit " Why did the chicken? \n"⟩]⟩, 5, .ok⟩).effects =
      [.httpGet (lit "https://api.groupme.com/v3/groups/7?token=t")
        (.ok (snapshot (lit "101") (lit "Alice") (lit "hey !marv tell me a joke"))),
       .createCompletion (lit "text-davinci-002") (completionRequest (lit "hey  tell me a joke")),
       .httpPost (lit "https://api.groupme.com/v3/groups/7/messages?token=t")
         (lit "application/json")
         (lit "\x7b\"message\":\x7b\"source_guid\":\"5\",\"text\":\"Why did the chicken?\"\x7d\x7d")] ∧
    decodeMessageBody
      (lit "\x7b\"message\":\x7b\"source_guid\":\"5\",\"text\":\"Why did the chicken?\"\x7d\x7d")
      = some (lit "5", lit "Why did the chicken?") ∧
    (completionRequest (lit "hey  tell me a joke")).Prompt =
      lit ("Marv is a chatbot that reluctantly answers questions with sarcastic responses:"
        ++ "\n\nYou: hey  tell me a joke\nMarv: ") := by
  have hbot : ¬ lit "Marv" <:+: lit "Alice" := (Contains_eq_false_iff _ _).mp (by decide)
  have e1 := (loopBody_scenario ⟨lit "t", lit "7", [], lit "Marv", lit "!marv"⟩
    (snapshot (lit "100") [] [])
    (snapshot (lit "101") (lit "Alice") (lit "hey !marv tell me a joke"))
    ⟨lit " say \"hi\" \n"⟩ [] 5 .ok rfl rfl rfl rfl rfl hbot).2.2.1
  have e2 := (loopBody_scenario ⟨lit "t", lit "7", [], lit "Marv", lit "!marv"⟩
    (snapshot (lit "100") [] [])
    (snapshot (lit "101") (lit "Alice") (lit "hey !marv tell me a joke"))
    ⟨lit " Why did the chicken? \n"⟩ [] 5 .ok rfl rfl rfl rfl rfl hbot).2.2.1
  have u1 : rootURL ++ lit "/groups/" ++ lit "7" ++ lit "?token=" ++ lit "t"
      = lit "https://api.groupme.com/v3/groups/7?token=t" := by decide
  have u2 : rootURL ++ lit "/groups/" ++ lit "7" ++ lit "/messages?token=" ++ lit "t"
      = lit "https://api.groupme.com/v3/groups/7/messages?token=t" := by decide
  have b1 : messageBody 5 (TrimSpace (lit " say \"hi\" \n"))
      = lit "\x7b\"message\":\x7b\"source_guid\":\"5\",\"text\":\"say \"hi\"\"\x7d\x7d" := by
    decide
  have b2 : messageBody 5 (TrimSpace (lit " Why did the chicken? \n"))
      = lit "\x7b\"message\":\x7b\"source_guid\":\"5\",\"text\":\"Why did the chicken?\"\x7d\x7d" := by
    decide
  have e0 := (loopBody_scenario ⟨lit "t", lit "7", [], lit "Marv", lit "!marv"⟩
    (snapshot (lit "100") [] [])
    (snapshot (lit "101") (lit "Alice") (lit "hey !marv tell me a joke"))
    ⟨lit " say \"hi\" \n"⟩ [] 5 .ok rfl rfl rfl rfl rfl hbot).1
  simp only [u1, u2, b1] at e1
  simp only [u1, u2, b2] at e2
  exact ⟨e0, by decide, e1, by decide, by decide, e2, by decide, by decide⟩

/-! ## The loop over many rounds -/

theorem fetched_append (a b : List Effect) : fetched (a ++ b) = fetched a ++ fetched b := by
  simp [fetched, List.filterMap_append]

theorem loopBody_newestMessage (cfg : Config) (g : Group) (w : World) :
    (loopBody cfg g w).newestMessage =
      match w.get with
      | .ok B => if stringGt B.id g.id then B else g
      | _ => g := by
  rcases w with ⟨get, c, now, p⟩
  rcases get with _ | _ | B
  · simp [loopBody, hasNewMessage, getNewestMessage]
  · simp [loopBody, hasNewMessage, getNewestMessage]
  · rw [loopBody_ok]
    simp only
    by_cases h1 : stringGt B.id g.id = true
    · simp only [h1, if_true]
      split
      · rfl
      · split
        · rcases c with err | ⟨_ | ⟨ch, rest⟩⟩ <;> rfl
        · rfl
    · simp [h1]

theorem loopBody_fetched (cfg : Config) (g : Group) (w : World) :
    fetched (loopBody cfg g w).effects =
      match w.get with
      | .ok B => [B]
      | _ => [] := by
  rcases w with ⟨get, c, now, p⟩
  rcases get with _ | _ | B
  · simp [loopBody, hasNewMessage, getNewestMessage, fetched]
  · simp [loopBody, hasNewMessage, getNewestMessage, fetched]
  · rw [loopBody_ok]
    simp only
    split
    · split
      · simp [fetched]
      · split
        · rcases c with err | ⟨_ | ⟨ch, rest⟩⟩ <;> simp [fetched]
        · simp [fetched]
    · simp [fetched]

theorem mainLoop_cons (cfg : Config) (g : Group) (w : World) (ws : List World) :
    (∃ u, (loopBody cfg g w).outcome = .ret u ∧
      mainLoop cfg g (w :: ws) =
        ⟨(loopBody cfg g w).effects ++ (mainLoop cfg (loopBody cfg g w).newestMessage ws).effects,
         (mainLoop cfg (loopBody cfg g w).newestMessage ws).newestMessage,
         (mainLoop cfg (loopBody cfg g w).newestMessage ws).outcome⟩) ∨
    ((∀ u, (loopBody cfg g w).outcome ≠ .ret u) ∧ mainLoop cfg g (w :: ws) = loopBody cfg g w) := by
  simp only [mainLoop]
  cases h : (loopBody cfg g w).outcome with
  | ret u => left; exact ⟨u, rfl, rfl⟩
  | exit code => right; simp
  | panic => right; simp

/-- The loop invariant: the held snapshot is the startup snapshot or one that
was fetched, and no id seen so far is greater than its id. -/
theorem mainLoop_invariant (cfg : Config) (ws : List World) (g : Group) :
    ((mainLoop cfg g ws).newestMessage = g ∨
      (mainLoop cfg g ws).newestMessage ∈ fetched (mainLoop cfg g ws).effects) ∧
    g.id ≤ (mainLoop cfg g ws).newestMessage.id ∧
    ∀ x ∈ fetched (mainLoop cfg g ws).effects, x.id ≤ (mainLoop cfg g ws).newestMessage.id := by
  induction ws generalizing g with
  | nil => simp [mainLoop, fetched]
  | cons w ws ih =>
    have hn := loopBody_newestMessage cfg g w
    have hf := loopBody_fetched cfg g w
    have hstep : g.id ≤ (loopBody cfg g w).newestMessage.id ∧
        ((loopBody cfg g w).newestMessage = g ∨
          (loopBody cfg g w).newestMessage ∈ fetched (loopBody cfg g w).effects) ∧
        ∀ x ∈ fetched (loopBody cfg g w).effects, x.id ≤ (loopBody cfg g w).newestMessage.id := by
      rw [hn, hf]
      rcases w.get with _ | _ | B
      · simp
      · simp
      · simp only [List.mem_singleton, forall_eq]
        by_cases h1 : stringGt B.id g.id = true
        · simp only [h1, if_true]
          exact ⟨le_of_lt ((stringGt_iff_lt _ _).mp h1), Or.inr trivial, le_refl _⟩
        · simp only [h1]
          refine ⟨le_refl _, Or.inl rfl, ?_⟩
          exact not_lt.mp (fun h => h1 ((stringGt_iff_lt _ _).mpr h))
    rcases mainLoop_cons cfg g w ws with ⟨u, _, h⟩ | ⟨_, h⟩
    · rw [h]
      simp only [fetched_append, List.mem_append]
      obtain ⟨i1, i2, i3⟩ := ih (loopBody cfg g w).newestMessage
      refine ⟨?_, le_trans hstep.1 i2, ?_⟩
      · rcases i1 with i1 | i1
        · rw [i1]
          rcases hstep.2.1 with h' | h'
          · exact Or.inl h'
          · exact Or.inr (Or.inl h')
        · exact Or.inr (Or.inr i1)
      · rintro x (hx | hx)
        · exact le_trans (hstep.2.2 x hx) i2
        · exact i3 x hx
    · rw [h]
      exact ⟨hstep.2.1, hstep.1, hstep.2.2⟩

theorem mainLoop_append (cfg : Config) (ws ws' : List World) (g : Group) :
    (mainLoop cfg g (ws ++ ws')).newestMessage = (mainLoop cfg g ws).newestMessage ∨
    (mainLoop cfg g (ws ++ ws')).newestMessage =
      (mainLoop cfg (mainLoop cfg g ws).newestMessage ws').newestMessage := by
  induction ws generalizing g with
  | nil => right; simp [mainLoop]
  | cons w ws ih =>
    rw [List.cons_append]
    rcases mainLoop_cons cfg g w ws with ⟨u, _, h⟩ | ⟨_, h⟩ <;>
      rcases mainLoop_cons cfg g w (ws ++ ws') with ⟨u', hu', h'⟩ | ⟨hu', h'⟩
    · rw [h, h']; exact ih _
    · exact absurd ‹_› (hu' u)
    · exact absurd hu' (‹∀ u, _› u')
    · left; rw [h, h']

theorem main_ok (cfg : Config) (g0 : Group) (ws : List World) :
    (main cfg (.ok g0) ws).newestMessage = some (mainLoop cfg g0 ws).newestMessage ∧
    fetched (main cfg (.ok g0) ws).effects = g0 :: fetched (mainLoop cfg g0 ws).effects := by
  simp [main, getNewestMessage, fetched]

theorem loopBody_quiet (cfg : Config) (g B : Group) (c : CompletionReply) (now : Int)
    (p : PostReply) (h : B.id ≤ g.id) :
    (loopBody cfg g ⟨.ok B, c, now, p⟩).effects.any Effect.isCompletion = false ∧
    (loopBody cfg g ⟨.ok B, c, now, p⟩).effects.any Effect.isPost = false ∧
    (loopBody cfg g ⟨.ok B, c, now, p⟩).newestMessage = g := by
  have h1 : ¬ stringGt B.id g.id = true := fun h' => not_lt.mpr h ((stringGt_iff_lt _ _).mp h')
  rw [loopBody_ok]
  simp [h1, Effect.isCompletion, Effect.isPost]

/-- C10: over any finite sequence of rounds after the startup fetch, (a) a round
replaces the held snapshot only by the fetched snapshot, and does so exactly
when the fetched id is strictly greater, whatever the self-reply guard and the
trigger test decide afterwards; (b) the held snapshot is one of the snapshots
fetched so far (the startup one included) and no fetched id is greater than
its id; (c) its id never decreases as the run goes on; (d) a snapshot fetched
later with an id that was held before causes no completion call and no post. -/
theorem main_lastSeen_invariant (cfg : Config) (g0 : Group) (ws : List World) :
    (∀ (g : Group) (w : World),
      (loopBody cfg g w).newestMessage = g ∨
      ∃ B, w.get = .ok B ∧ (loopBody cfg g w).newestMessage = B ∧
        List.Lex (· < ·) g.id B.id) ∧
    (∀ (g B : Group) (c : CompletionReply) (now : Int) (p : PostReply),
      List.Lex (· < ·) g.id B.id → (loopBody cfg g ⟨.ok B, c, now, p⟩).newestMessage = B) ∧
    (∃ g, (main cfg (.ok g0) ws).newestMessage = some g ∧
      g ∈ fetched (main cfg (.ok g0) ws).effects ∧
      ∀ x ∈ fetched (main cfg (.ok g0) ws).effects, ¬ List.Lex (· < ·) g.id x.id) ∧
    (∀ ws' : List World, ∃ g g',
      (main cfg (.ok g0) ws).newestMessage = some g ∧
      (main cfg (.ok g0) (ws ++ ws')).newestMessage = some g' ∧
      ¬ List.Lex (· < ·) g'.id g.id ∧
      ∀ (B : Group) (c : CompletionReply) (now : Int) (p : PostReply), B.id = g.id →
        (loopBody cfg g' ⟨.ok B, c, now, p⟩).effects.any Effect.isCompletion = false ∧
        (loopBody cfg g' ⟨.ok B, c, now, p⟩).effects.any Effect.isPost = false) := by
  refine ⟨?_, ?_, ?_, ?_⟩
  · intro g w
    rw [loopBody_newestMessage]
    rcases w.get with _ | _ | B
    · exact Or.inl rfl
    · exact Or.inl rfl
    · by_cases h1 : stringGt B.id g.id = true
      · right
        exact ⟨B, rfl, by simp [h1], (stringGt_iff_lex _ _).mp h1⟩
      · left; simp [h1]
  · intro g B c now p h
    rw [loopBody_newestMessage]
    simp [(stringGt_iff_lex _ _).mpr h]
  · obtain ⟨i1, _, i3⟩ := mainLoop_invariant cfg ws g0
    refine ⟨_, (main_ok cfg g0 ws).1, ?_, ?_⟩
    · rw [(main_ok cfg g0 ws).2]
      rcases i1 with i1 | i1
      · rw [i1]; exact List.mem_cons_self _ _
      · exact List.mem_cons_of_mem _ i1
    · rw [(main_ok cfg g0 ws).2]
      intro x hx
      rcases List.mem_cons.mp hx with rfl | hx
      · exact not_lt.mpr (mainLoop_invariant cfg ws x).2.1
      · exact not_lt.mpr (i3 x hx)
  · intro ws'
    have hle : (mainLoop cfg g0 ws).newestMessage.id
        ≤ (mainLoop cfg g0 (ws ++ ws')).newestMessage.id := by
      rcases mainLoop_append cfg ws ws' g0 with h | h
      · rw [h]
      · rw [h]; exact (mainLoop_invariant cfg ws' _).2.1
    refine ⟨_, _, (main_ok cfg g0 ws).1, (main_ok cfg g0 (ws ++ ws')).1, not_lt.mpr hle, ?_⟩
    intro B c now p hB
    have := loopBody_quiet cfg (mainLoop cfg g0 (ws ++ ws')).newestMessage B c now p
      (by rw [hB]; exact hle)
    exact ⟨this.1, this.2.1⟩

/-- C10, on a concrete run: startup id "100", then a round fetching "101" from
the bot itself, then a round fetching "100" again; the held id ends as "101",
the maximum, and the repeated "100" gives no completion call and no post. -/
theorem main_lastSeen_invariant_witness :
    (∃ g, (main ⟨[], [], [], lit "Marv", lit "!marv"⟩ (.ok (snapshot (lit "100") [] []))
        [⟨.ok (snapshot (lit "101") (lit "Marv") (lit "!marv hi")), .ok ⟨[]⟩, 0, .ok⟩,
         ⟨.ok (snapshot (lit "100") (lit "Al") (lit "!marv hi")), .ok ⟨[]⟩, 0, .ok⟩]
        ).newestMessage = some g ∧
      g ∈ fetched (main ⟨[], [], [], lit "Marv", lit "!marv"⟩
        (.ok (snapshot (lit "100") [] []))
        [⟨.ok (snapshot (lit "101") (lit "Marv") (lit "!marv hi")), .ok ⟨[]⟩, 0, .ok⟩,
         ⟨.ok (snapshot (lit "100") (lit "Al") (lit "!marv hi")), .ok ⟨[]⟩, 0, .ok⟩]).effects ∧
      ∀ x ∈ fetched (main ⟨[], [], [], lit "Marv", lit "!marv"⟩
        (.ok (snapshot (lit "100") [] []))
        [⟨.ok (snapshot (lit "101") (lit "Marv") (lit "!marv hi")), .ok ⟨[]⟩, 0, .ok⟩,
         ⟨.ok (snapshot (lit "100") (lit "Al") (lit "!marv hi")), .ok ⟨[]⟩, 0, .ok⟩]).effects,
        ¬ List.Lex (· < ·) g.id x.id) ∧
    ((main ⟨[], [], [], lit "Marv", lit "!marv"⟩ (.ok (snapshot (lit "100") [] []))
        [⟨.ok (snapshot (lit "101") (lit "Marv") (lit "!marv hi")), .ok ⟨[]⟩, 0, .ok⟩,
         ⟨.ok (snapshot (lit "100") (lit "Al") (lit "!marv hi")), .ok ⟨[]⟩, 0, .ok⟩]
        ).newestMessage.map Group.id = some (lit "101")) :=
  ⟨(main_lastSeen_invariant ⟨[], [], [], lit "Marv", lit "!marv"⟩ (snapshot (lit "100") [] [])
    [⟨.ok (snapshot (lit "101") (lit "Marv") (lit "!marv hi")), .ok ⟨[]⟩, 0, .ok⟩,
     ⟨.ok (snapshot (lit "100") (lit "Al") (lit "!marv hi")), .ok ⟨[]⟩, 0, .ok⟩]).2.2.1,
   by decide⟩

/-! ## The decoders of `unicode/utf8` and `TrimSpace` -/

theorem bits2 (a b : Nat) : (a &&& 0x1F) <<< 6 ||| (b &&& 0x3F) = (a % 32) * 64 + b % 64 := by
  have h1 : a &&& 0x1F = a % 32 := Nat.and_pow_two_sub_one_eq_mod a 5
  have h2 : b &&& 0x3F = b % 64 := Nat.and_pow_two_sub_one_eq_mod b 6
  rw [h1, h2, Nat.shiftLeft_eq, Nat.mul_comm (a % 32)]
  exact (Nat.mul_add_lt_is_or (i := 6) (Nat.mod_lt _ (by norm_num)) _).symm

theorem bits3 (a b c : Nat) :
    (a &&& 0x0F) <<< 12 ||| (b &&& 0x3F) <<< 6 ||| (c &&& 0x3F)
      = (a % 16) * 4096 + (b % 64) * 64 + c % 64 := by
  have h1 : a &&& 0x0F = a % 16 := Nat.and_pow_two_sub_one_eq_mod a 4
  have h2 : b &&& 0x3F = b % 64 := Nat.and_pow_two_sub_one_eq_mod b 6
  have h3 : c &&& 0x3F = c % 64 := Nat.and_pow_two_sub_one_eq_mod c 6
  rw [h1, h2, h3, Nat.shiftLeft_eq, Nat.shiftLeft_eq]
  have e1 : a % 16 * 2 ^ 12 ||| b % 64 * 2 ^ 6 = 2 ^ 6 * (a % 16 * 64 + b % 64) := by
    have := Nat.mul_add_lt_is_or (i := 12) (b := b % 64 * 2 ^ 6) (by omega) (a % 16)
    rw [Nat.mul_comm (a % 16) (2 ^ 12), ← this]
    omega
  rw [e1, ← Nat.mul_add_lt_is_or (i := 6) (Nat.mod_lt _ (by norm_num))]
  omega

theorem bits4 (a b c d : Nat) :
    (a &&& 0x07) <<< 18 ||| (b &&& 0x3F) <<< 12 ||| (c &&& 0x3F) <<< 6 ||| (d &&& 0x3F)
      = (a % 8) * 262144 + (b % 64) * 4096 + (c % 64) * 64 + d % 64 := by
  have h1 : a &&& 0x07 = a % 8 := Nat.and_pow_two_sub_one_eq_mod a 3
  have h2 : b &&& 0x3F = b % 64 := Nat.and_pow_two_sub_one_eq_mod b 6
  have h3 : c &&& 0x3F = c % 64 := Nat.and_pow_two_sub_one_eq_mod c 6
  have h4 : d &&& 0x3F = d % 64 := Nat.and_pow_two_sub_one_eq_mod d 6
  rw [h1, h2, h3, h4, Nat.shiftLeft_eq, Nat.shiftLeft_eq, Nat.shiftLeft_eq]
  have e1 : a % 8 * 2 ^ 18 ||| b % 64 * 2 ^ 12 = 2 ^ 12 * (a % 8 * 64 + b % 64) := by
    have := Nat.mul_add_lt_is_or (i := 18) (b := b % 64 * 2 ^ 12) (by omega) (a % 8)
    rw [Nat.mul_comm (a % 8) (2 ^ 18), ← this]
    omega
  have e2 : 2 ^ 12 * (a % 8 * 64 + b % 64) ||| c % 64 * 2 ^ 6
      = 2 ^ 6 * ((a % 8 * 64 + b % 64) * 64 + c % 64) := by
    have := Nat.mul_add_lt_is_or (i := 12) (b := c % 64 * 2 ^ 6) (by omega) (a % 8 * 64 + b % 64)
    rw [← this]
    omega
  rw [e1, e2, ← Nat.mul_add_lt_is_or (i := 6) (Nat.mod_lt _ (by norm_num))]
  omega

theorem first_cases (b : Nat) :
    (first b = 0xF0 ∧ b < 0x80) ∨
    (first b = 0xF1 ∧ ((0x80 ≤ b ∧ b < 0xC2) ∨ 0xF5 ≤ b)) ∨
    (first b = 0x02 ∧ 0xC2 ≤ b ∧ b ≤ 0xDF) ∨
    (first b = 0x13 ∧ b = 0xE0) ∨
    (first b = 0x03 ∧ ((0xE1 ≤ b ∧ b ≤ 0xEC) ∨ (0xEE ≤ b ∧ b ≤ 0xEF))) ∨
    (first b = 0x23 ∧ b = 0xED) ∨
    (first b = 0x34 ∧ b = 0xF0) ∨
    (first b = 0x04 ∧ 0xF1 ≤ b ∧ b ≤ 0xF3) ∨
    (first b = 0x44 ∧ b = 0xF4) := by
  by_cases h1 : b < 0x80
  · exact Or.inl ⟨by simp only [first, h1, if_true], h1⟩
  by_cases h2 : b < 0xC2
  · exact Or.inr (Or.inl ⟨by simp only [first, h1, h2, if_true, if_false],
      Or.inl ⟨by omega, h2⟩⟩)
  by_cases h3 : b < 0xE0
  · exact Or.inr (Or.inr (Or.inl ⟨by simp only [first, h1, h2, h3, if_true, if_false],
      by omega, by omega⟩))
  by_cases h4 : b = 0xE0
  · exact Or.inr (Or.inr (Or.inr (Or.inl ⟨by rw [h4]; rfl, h4⟩)))
  by_cases h5 : b < 0xED
  · exact Or.inr (Or.inr (Or.inr (Or.inr (Or.inl
      ⟨by simp only [first, h1, h2, h3, h4, h5, if_true, if_false],
        Or.inl ⟨by omega, by omega⟩⟩))))
  by_cases h6 : b = 0xED
  · exact Or.inr (Or.inr (Or.inr (Or.inr (Or.inr (Or.inl ⟨by rw [h6]; rfl, h6⟩)))))
  by_cases h7 : b < 0xF0
  · exact Or.inr (Or.inr (Or.inr (Or.inr (Or.inl
      ⟨by simp only [first, h1, h2, h3, h4, h5, h6, h7, if_true, if_false],
        Or.inr ⟨by omega, by omega⟩⟩))))
  by_cases h8 : b = 0xF0
  · exact Or.inr (Or.inr (Or.inr (Or.inr (Or.inr (Or.inr (Or.inl ⟨by rw [h8]; rfl, h8⟩))))))
  by_cases h9 : b < 0xF4
  · exact Or.inr (Or.inr (Or.inr (Or.inr (Or.inr (Or.inr (Or.inr (Or.inl
      ⟨by simp only [first, h1, h2, h3, h4, h5, h6, h7, h8, h9, if_true, if_false],
        by omega, by omega⟩)))))))
  by_cases h10 : b = 0xF4
  · exact Or.inr (Or.inr (Or.inr (Or.inr (Or.inr (Or.inr (Or.inr (Or.inr
      ⟨by rw [h10]; rfl, h10⟩)))))))
  exact Or.inr (Or.inl
    ⟨by simp only [first, h1, h2, h3, h4, h5, h6, h7, h8, h9, h10, if_true, if_false],
      Or.inr (by omega)⟩)

theorem first_eq (b : Nat) :
    (b < 0x80 → first b = 0xF0) ∧
    (0x80 ≤ b ∧ b < 0xC2 ∨ 0xF5 ≤ b → first b = 0xF1) ∧
    (0xC2 ≤ b ∧ b ≤ 0xDF → first b = 0x02) ∧
    (b = 0xE0 → first b = 0x13) ∧
    (0xE1 ≤ b ∧ b ≤ 0xEC ∨ 0xEE ≤ b ∧ b ≤ 0xEF → first b = 0x03) ∧
    (b = 0xED → first b = 0x23) ∧
    (b = 0xF0 → first b = 0x34) ∧
    (0xF1 ≤ b ∧ b ≤ 0xF3 → first b = 0x04) ∧
    (b = 0xF4 → first b = 0x44) := by
  rcases first_cases b with ⟨hf, h'⟩ | ⟨hf, h'⟩ | ⟨hf, h'⟩ | ⟨hf, h'⟩ | ⟨hf, h'⟩ | ⟨hf, h'⟩ |
    ⟨hf, h'⟩ | ⟨hf, h'⟩ | ⟨hf, h'⟩ <;>
  refine ⟨?_, ?_, ?_, ?_, ?_, ?_, ?_, ?_, ?_⟩ <;> intro h <;> first | exact hf | omega

theorem and7 :
    (0x02 &&& 7 = 2) ∧ (0x13 &&& 7 = 3) ∧ (0x03 &&& 7 = 3) ∧ (0x23 &&& 7 = 3) ∧
    (0x34 &&& 7 = 4) ∧ (0x04 &&& 7 = 4) ∧ (0x44 &&& 7 = 4) := by decide

theorem shr4 :
    (0x02 >>> 4 = 0) ∧ (0x13 >>> 4 = 1) ∧ (0x03 >>> 4 = 0) ∧ (0x23 >>> 4 = 2) ∧
    (0x34 >>> 4 = 3) ∧ (0x04 >>> 4 = 0) ∧ (0x44 >>> 4 = 4) := by decide

theorem Decode_ascii (s0 : Byte) (t : GoString) (h : s0.val < 0x80) :
    DecodeRuneInString (s0 :: t) = ((s0.val : Int), 1) := by
  simp [DecodeRuneInString, (first_eq s0.val).1 h]

theorem Decode_two (s0 s1 : Byte) (t1 : GoString) (h : Valid2 s0 s1) :
    DecodeRuneInString (s0 :: s1 :: t1) = (val2 s0 s1, 2) := by
  obtain ⟨h1, h2, h3, h4⟩ := h
  have hf := (first_eq s0.val).2.2.1 ⟨h1, h2⟩
  have e1 : ¬ (s1.val < 0x80 ∨ 0xBF < s1.val) := by omega
  simp only [DecodeRuneInString, hf, acceptRanges, val2, bits2]
  simp [e1, and7]

theorem Decode_three (s0 s1 s2 : Byte) (t2 : GoString) (h : Valid3 s0 s1 s2) :
    DecodeRuneInString (s0 :: s1 :: s2 :: t2) = (val3 s0 s1 s2, 3) := by
  obtain ⟨h1, h2, h3, h4, h5, h6, h7, h8⟩ := h
  have e2 : ¬ (s2.val < 0x80 ∨ 0xBF < s2.val) := by omega
  have hc : s0.val = 0xE0 ∨ s0.val = 0xED ∨
      (0xE1 ≤ s0.val ∧ s0.val ≤ 0xEC ∨ 0xEE ≤ s0.val ∧ s0.val ≤ 0xEF) := by omega
  rcases hc with hc | hc | hc
  · have hf := (first_eq s0.val).2.2.2.1 hc
    have e1 : ¬ (s1.val < 0xA0 ∨ 0xBF < s1.val) := by omega
    simp only [DecodeRuneInString, hf, acceptRanges, val3, bits3]
    simp [e1, e2, and7]
  · have hf := (first_eq s0.val).2.2.2.2.2.1 hc
    have e1 : ¬ (s1.val < 0x80 ∨ 0x9F < s1.val) := by omega
    simp only [DecodeRuneInString, hf, acceptRanges, val3, bits3]
    simp [e1, e2, and7]
  · have hf := (first_eq s0.val).2.2.2.2.1 hc
    have e1 : ¬ (s1.val < 0x80 ∨ 0xBF < s1.val) := by omega
    simp only [DecodeRuneInString, hf, acceptRanges, val3, bits3]
    simp [e1, e2, and7]

theorem Decode_four (s0 s1 s2 s3 : Byte) (t3 : GoString) (h : Valid4 s0 s1 s2 s3) :
    DecodeRuneInString (s0 :: s1 :: s2 :: s3 :: t3) = (val4 s0 s1 s2 s3, 4) := by
  obtain ⟨h1, h2, h3, h4, h5, h6, h7, h8, h9, h10⟩ := h
  have e2 : ¬ (s2.val < 0x80 ∨ 0xBF < s2.val) := by omega
  have e3 : ¬ (s3.val < 0x80 ∨ 0xBF < s3.val) := by omega
  have hc : s0.val = 0xF0 ∨ s0.val = 0xF4 ∨ (0xF1 ≤ s0.val ∧ s0.val ≤ 0xF3) := by omega
  rcases hc with hc | hc | hc
  · have hf := (first_eq s0.val).2.2.2.2.2.2.1 hc
    have e1 : ¬ (s1.val < 0x90 ∨ 0xBF < s1.val) := by omega
    simp only [DecodeRuneInString, hf, acceptRanges, val4, bits4]
    simp [e1, e2, e3, and7]
  · have hf := (first_eq s0.val).2.2.2.2.2.2.2.2 hc
    have e1 : ¬ (s1.val < 0x80 ∨ 0x8F < s1.val) := by omega
    simp only [DecodeRuneInString, hf, acceptRanges, val4, bits4]
    simp [e1, e2, e3, and7]
  · have hf := (first_eq s0.val).2.2.2.2.2.2.2.1 hc
    have e1 : ¬ (s1.val < 0x80 ∨ 0xBF < s1.val) := by omega
    simp only [DecodeRuneInString, hf, acceptRanges, val4, bits4]
    simp [e1, e2, e3, and7]

theorem Decode_cases (s0 : Byte) (t : GoString) :
    (s0.val < 0x80 ∧ DecodeRuneInString (s0 :: t) = ((s0.val : Int), 1)) ∨
    (0x80 ≤ s0.val ∧ DecodeRuneInString (s0 :: t) = (RuneError, 1)) ∨
    (∃ s1 t1, t = s1 :: t1 ∧ Valid2 s0 s1) ∨
    (∃ s1 s2 t2, t = s1 :: s2 :: t2 ∧ Valid3 s0 s1 s2) ∨
    (∃ s1 s2 s3 t3, t = s1 :: s2 :: s3 :: t3 ∧ Valid4 s0 s1 s2 s3) := by
  have hlt := s0.isLt
  have herr : 0x80 ≤ s0.val → DecodeRuneInString (s0 :: t) = (RuneError, 1) →
      ((s0.val < 0x80 ∧ DecodeRuneInString (s0 :: t) = ((s0.val : Int), 1)) ∨
      (0x80 ≤ s0.val ∧ DecodeRuneInString (s0 :: t) = (RuneError, 1)) ∨
      (∃ s1 t1, t = s1 :: t1 ∧ Valid2 s0 s1) ∨
      (∃ s1 s2 t2, t = s1 :: s2 :: t2 ∧ Valid3 s0 s1 s2) ∨
      (∃ s1 s2 s3 t3, t = s1 :: s2 :: s3 :: t3 ∧ Valid4 s0 s1 s2 s3)) :=
    fun h1 h2 => Or.inr (Or.inl ⟨h1, h2⟩)
  rcases first_cases s0.val with ⟨hf, h'⟩ | ⟨hf, h'⟩ | ⟨hf, h'⟩ | ⟨hf, h'⟩ | ⟨hf, h'⟩ | ⟨hf, h'⟩ |
    ⟨hf, h'⟩ | ⟨hf, h'⟩ | ⟨hf, h'⟩
  · exact Or.inl ⟨h', Decode_ascii s0 t h'⟩
  · exact herr (by omega) (by simp [DecodeRuneInString, hf])
  · have h80 : 0x80 ≤ s0.val := by omega
    cases t with
    | nil => exact herr h80 (by simp [DecodeRuneInString, hf, and7])
    | cons s1 t1 =>
      by_cases e1 : s1.val < 0x80 ∨ 0xBF < s1.val
      · exact herr h80 (by simp [DecodeRuneInString, hf, acceptRanges, and7, shr4, e1])
      · exact Or.inr (Or.inr (Or.inl ⟨s1, t1, rfl, by unfold Valid2; omega⟩))
  · have h80 : 0x80 ≤ s0.val := by omega
    cases t with
    | nil => exact herr h80 (by simp [DecodeRuneInString, hf, and7])
    | cons s1 t1 =>
      cases t1 with
      | nil => exact herr h80 (by simp [DecodeRuneInString, hf, and7])
      | cons s2 t2 =>
        by_cases e1 : s1.val < 0xA0 ∨ 0xBF < s1.val
        · exact herr h80 (by simp [DecodeRuneInString, hf, acceptRanges, and7, shr4, e1])
        · by_cases e2 : s2.val < 0x80 ∨ 0xBF < s2.val
          · exact herr h80
              (by simp [DecodeRuneInString, hf, acceptRanges, and7, shr4, e1, e2])
          · exact Or.inr (Or.inr (Or.inr (Or.inl ⟨s1, s2, t2, rfl, by
              unfold Valid3; omega⟩)))
  · have h80 : 0x80 ≤ s0.val := by omega
    cases t with
    | nil => exact herr h80 (by simp [DecodeRuneInString, hf, and7])
    | cons s1 t1 =>
      cases t1 with
      | nil => exact herr h80 (by simp [DecodeRuneInString, hf, and7])
      | cons s2 t2 =>
        by_cases e1 : s1.val < 0x80 ∨ 0xBF < s1.val
        · exact herr h80 (by simp [DecodeRuneInString, hf, acceptRanges, and7, shr4, e1])
        · by_cases e2 : s2.val < 0x80 ∨ 0xBF < s2.val
          · exact herr h80
              (by simp [DecodeRuneInString, hf, acceptRanges, and7, shr4, e1, e2])
          · exact Or.inr (Or.inr (Or.inr (Or.inl ⟨s1, s2, t2, rfl, by
              unfold Valid3; omega⟩)))
  · have h80 : 0x80 ≤ s0.val := by omega
    cases t with
    | nil => exact herr h80 (by simp [DecodeRuneInString, hf, and7])
    | cons s1 t1 =>
      cases t1 with
      | nil => exact herr h80 (by simp [DecodeRuneInString, hf, and7])
      | cons s2 t2 =>
        by_cases e1 : s1.val < 0x80 ∨ 0x9F < s1.val
        · exact herr h80 (by simp [DecodeRuneInString, hf, acceptRanges, and7, shr4, e1])
        · by_cases e2 : s2.val < 0x80 ∨ 0xBF < s2.val
          · exact herr h80
              (by simp [DecodeRuneInString, hf, acceptRanges, and7, shr4, e1, e2])
          · exact Or.inr (Or.inr (Or.inr (Or.inl ⟨s1, s2, t2, rfl, by
              unfold Valid3; omega⟩)))
  · have h80 : 0x80 ≤ s0.val := by omega
    cases t with
    | nil => exact herr h80 (by simp [DecodeRuneInString, hf, and7])
    | cons s1 t1 =>
      cases t1 with
      | nil => exact herr h80 (by simp [DecodeRuneInString, hf, and7])
      | cons s2 t2 =>
        cases t2 with
        | nil => exact herr h80 (by simp [DecodeRuneInString, hf, and7])
        | cons s3 t3 =>
          by_cases e1 : s1.val < 0x90 ∨ 0xBF < s1.val
          · exact herr h80
              (by simp [DecodeRuneInString, hf, acceptRanges, and7, shr4, e1])
          · by_cases e2 : s2.val < 0x80 ∨ 0xBF < s2.val
            · exact herr h80
                (by simp [DecodeRuneInString, hf, acceptRanges, and7, shr4, e1, e2])
            · by_cases e3 : s3.val < 0x80 ∨ 0xBF < s3.val
              · exact herr h80
                  (by simp [DecodeRuneInString, hf, acceptRanges, and7, shr4, e1, e2, e3])
              · exact Or.inr (Or.inr (Or.inr (Or.inr ⟨s1, s2, s3, t3, rfl, by
                  unfold Valid4; omega⟩)))
  · have h80 : 0x80 ≤ s0.val := by omega
    cases t with
    | nil => exact herr h80 (by simp [DecodeRuneInString, hf, and7])
    | cons s1 t1 =>
      cases t1 with
      | nil => exact herr h80 (by simp [DecodeRuneInString, hf, and7])
      | cons s2 t2 =>
        cases t2 with
        | nil => exact herr h80 (by simp [DecodeRuneInString, hf, and7])
        | cons s3 t3 =>
          by_cases e1 : s1.val < 0x80 ∨ 0xBF < s1.val
          · exact herr h80
              (by simp [DecodeRuneInString, hf, acceptRanges, and7, shr4, e1])
          · by_cases e2 : s2.val < 0x80 ∨ 0xBF < s2.val
            · exact herr h80
                (by simp [DecodeRuneInString, hf, acceptRanges, and7, shr4, e1, e2])
            · by_cases e3 : s3.val < 0x80 ∨ 0xBF < s3.val
              · exact herr h80
                  (by simp [DecodeRuneInString, hf, acceptRanges, and7, shr4, e1, e2, e3])
              · exact Or.inr (Or.inr (Or.inr (Or.inr ⟨s1, s2, s3, t3, rfl, by
                  unfold Valid4; omega⟩)))
  · have h80 : 0x80 ≤ s0.val := by omega
    cases t with
    | nil => exact herr h80 (by simp [DecodeRuneInString, hf, and7])
    | cons s1 t1 =>
      cases t1 with
      | nil => exact herr h80 (by simp [DecodeRuneInString, hf, and7])
      | cons s2 t2 =>
        cases t2 with
        | nil => exact herr h80 (by simp [DecodeRuneInString, hf, and7])
        | cons s3 t3 =>
          by_cases e1 : s1.val < 0x80 ∨ 0x8F < s1.val
          · exact herr h80
              (by simp [DecodeRuneInString, hf, acceptRanges, and7, shr4, e1])
          · by_cases e2 : s2.val < 0x80 ∨ 0xBF < s2.val
            · exact herr h80
                (by simp [DecodeRuneInString, hf, acceptRanges, and7, shr4, e1, e2])
            · by_cases e3 : s3.val < 0x80 ∨ 0xBF < s3.val
              · exact herr h80
                  (by simp [DecodeRuneInString, hf, acceptRanges, and7, shr4, e1, e2, e3])
              · exact Or.inr (Or.inr (Or.inr (Or.inr ⟨s1, s2, s3, t3, rfl, by
                  unfold Valid4; omega⟩)))

theorem or_C0 (x : Nat) (h : x < 32) : 0xC0 ||| x = 192 + x := by
  have := Nat.mul_add_lt_is_or (i := 5) (b := x) (by simpa using h) 6
  simpa using this.symm

theorem or_E0 (x : Nat) (h : x < 16) : 0xE0 ||| x = 224 + x := by
  have := Nat.mul_add_lt_is_or (i := 4) (b := x) (by simpa using h) 14
  simpa using this.symm

theorem or_80 (x : Nat) (h : x < 64) : 0x80 ||| x = 128 + x := by
  have := Nat.mul_add_lt_is_or (i := 6) (b := x) (by simpa using h) 2
  simpa using this.symm

theorem and_3F (x : Nat) : x &&& 0x3F = x % 64 := Nat.and_pow_two_sub_one_eq_mod x 6

theorem Encode_val1 (b : Byte) (h : b.val < 0x80) : EncodeRune (b.val : Int) = [b] := by
  have hb : ¬ ((b.val : Int) < 0) := by omega
  have h1 : b.val ≤ 0x7F := by omega
  simp only [EncodeRune, hb, if_false, Int.toNat_ofNat, h1, if_true]
  congr 1
  apply Fin.ext
  simp [Fin.ofNat]

theorem Encode_val2 (s0 s1 : Byte) (h : Valid2 s0 s1) : EncodeRune (val2 s0 s1) = [s0, s1] := by
  obtain ⟨h1, h2, h3, h4⟩ := h
  have hb : ¬ (val2 s0 s1 < 0) := by unfold val2; omega
  have e1 : ¬ (s0.val % 32 * 64 + s1.val % 64 ≤ 0x7F) := by omega
  have e2 : s0.val % 32 * 64 + s1.val % 64 ≤ 0x7FF := by omega
  simp only [EncodeRune, hb, if_false]
  simp only [val2, Int.toNat_ofNat, e1, e2, if_true, if_false, Nat.shiftRight_eq_div_pow, and_3F]
  rw [or_C0 _ (by omega), or_80 _ (by omega)]
  congr 1
  · apply Fin.ext; simp only [Fin.ofNat]; omega
  · congr 1; apply Fin.ext; simp only [Fin.ofNat]; omega

theorem Encode_val3 (s0 s1 s2 : Byte) (h : Valid3 s0 s1 s2) :
    EncodeRune (val3 s0 s1 s2) = [s0, s1, s2] := by
  obtain ⟨h1, h2, h3, h4, h5, h6, h7, h8⟩ := h
  have hb : ¬ (val3 s0 s1 s2 < 0) := by unfold val3; omega
  have e1 : ¬ (s0.val % 16 * 4096 + s1.val % 64 * 64 + s2.val % 64 ≤ 0x7F) := by omega
  have e2 : ¬ (s0.val % 16 * 4096 + s1.val % 64 * 64 + s2.val % 64 ≤ 0x7FF) := by omega
  have e3 : ¬ (0x10FFFF < s0.val % 16 * 4096 + s1.val % 64 * 64 + s2.val % 64 ∨
      (0xD800 ≤ s0.val % 16 * 4096 + s1.val % 64 * 64 + s2.val % 64 ∧
        s0.val % 16 * 4096 + s1.val % 64 * 64 + s2.val % 64 ≤ 0xDFFF)) := by omega
  have e4 : s0.val % 16 * 4096 + s1.val % 64 * 64 + s2.val % 64 ≤ 0xFFFF := by omega
  simp only [EncodeRune, hb, if_false]
  simp only [val3, Int.toNat_ofNat, e1, e2, e3, e4, if_true, if_false,
    Nat.shiftRight_eq_div_pow, and_3F]
  rw [or_E0 _ (by omega), or_80 _ (by omega), or_80 _ (by omega)]
  congr 1
  · apply Fin.ext; simp only [Fin.ofNat]; omega
  · congr 1
    · apply Fin.ext; simp only [Fin.ofNat]; omega
    · congr 1; apply Fin.ext; simp only [Fin.ofNat]; omega

theorem is16_White_Space (n : Nat) (h : 256 ≤ n) :
    is16 [(0x00a0, 0x1680, 5600), (0x2000, 0x200a, 1), (0x2028, 0x2029, 1),
        (0x202f, 0x205f, 48), (0x3000, 0x3000, 1)] n = true ↔
      n = 0x1680 ∨ (0x2000 ≤ n ∧ n ≤ 0x200A) ∨ n = 0x2028 ∨ n = 0x2029 ∨ n = 0x202F ∨
      n = 0x205F ∨ n = 0x3000 := by
  have d1 : decide ((5600 : Nat) = 1) = false := by decide
  have d2 : decide ((48 : Nat) = 1) = false := by decide
  have d3 : decide ((1 : Nat) = 1) = true := by decide
  unfold is16
  rw [if_neg (by omega), d1, Bool.false_or]
  by_cases c1 : n ≤ 0x1680
  · rw [if_pos c1, decide_eq_true_eq]
    constructor <;> intro h' <;> omega
  rw [if_neg c1]
  unfold is16
  by_cases c2 : n < 0x2000
  · rw [if_pos c2]
    constructor
    · intro h'; exact absurd h' (by simp)
    · intro h'; omega
  rw [if_neg c2, d3, Bool.true_or]
  by_cases c3 : n ≤ 0x200a
  · rw [if_pos c3]
    constructor
    · intro _; omega
    · intro _; rfl
  rw [if_neg c3]
  unfold is16
  by_cases c4 : n < 0x2028
  · rw [if_pos c4]
    constructor
    · intro h'; exact absurd h' (by simp)
    · intro h'; omega
  rw [if_neg c4, d3, Bool.true_or]
  by_cases c5 : n ≤ 0x2029
  · rw [if_pos c5]
    constructor
    · intro _; omega
    · intro _; rfl
  rw [if_neg c5]
  unfold is16
  by_cases c6 : n < 0x202f
  · rw [if_pos c6]
    constructor
    · intro h'; exact absurd h' (by simp)
    · intro h'; omega
  rw [if_neg c6, d2, Bool.false_or]
  by_cases c7 : n ≤ 0x205f
  · rw [if_pos c7, decide_eq_true_eq]
    constructor <;> intro h' <;> omega
  rw [if_neg c7]
  unfold is16
  by_cases c8 : n < 0x3000
  · rw [if_pos c8]
    constructor
    · intro h'; exact absurd h' (by simp)
    · intro h'; omega
  rw [if_neg c8, d3, Bool.true_or]
  by_cases c9 : n ≤ 0x3000
  · rw [if_pos c9]
    constructor
    · intro _; omega
    · intro _; rfl
  rw [if_neg c9]
  unfold is16
  constructor
  · intro h'; exact absurd h' (by simp)
  · intro h'; omega

theorem IsSpace_iff (r : Int) (hr : -2 ^ 31 ≤ r ∧ r < 2 ^ 31) :
    IsSpace r = true ↔
      (9 ≤ r ∧ r ≤ 13) ∨ r = 0x20 ∨ r = 0x85 ∨ r = 0xA0 ∨ r = 0x1680 ∨
      (0x2000 ≤ r ∧ r ≤ 0x200A) ∨ r = 0x2028 ∨ r = 0x2029 ∨ r = 0x202F ∨ r = 0x205F ∨
      r = 0x3000 := by
  unfold IsSpace isExcludingLatin_White_Space White_Space_R16 White_Space_LatinOffset
  by_cases h : r % 2 ^ 32 ≤ 0xFF
  · simp only [h, if_true, decide_eq_true_eq]
    constructor <;> intro h' <;> omega
  · simp only [h, if_false, List.length_cons, List.length_nil, List.drop_succ_cons, List.drop_zero,
      List.getD_cons_succ, List.getD_cons_zero, Nat.reduceAdd, Nat.reduceSub,
      Nat.reduceLT, true_and]
    by_cases hle : r % 2 ^ 32 ≤ ((12288 : Nat) : Int)
    · rw [if_pos hle, is16_White_Space _ (by omega)]
      constructor <;> intro h' <;> omega
    · rw [if_neg hle]
      constructor
      · intro h'; exact absurd h' (by simp)
      · intro h'; omega

theorem rune_bytes (r : Int) (h0 : 0 ≤ r) (h1 : r ≤ 0xD7FF) :
    (∃ b : Byte, b.val < 0x80 ∧ r = (b.val : Int)) ∨
    (∃ s0 s1, Valid2 s0 s1 ∧ r = val2 s0 s1) ∨
    (∃ s0 s1 s2, Valid3 s0 s1 s2 ∧ r = val3 s0 s1 s2) := by
  obtain ⟨n, rfl⟩ := Int.eq_ofNat_of_zero_le h0
  by_cases c1 : n < 0x80
  · exact Or.inl ⟨Fin.ofNat n, by simp only [Fin.ofNat]; omega, by simp only [Fin.ofNat]; omega⟩
  by_cases c2 : n < 0x800
  · refine Or.inr (Or.inl ⟨Fin.ofNat (192 + n / 64), Fin.ofNat (128 + n % 64), ?_, ?_⟩)
    · simp only [Valid2, Fin.ofNat]; omega
    · simp only [val2, Fin.ofNat]; omega
  · refine Or.inr (Or.inr ⟨Fin.ofNat (224 + n / 4096), Fin.ofNat (128 + n / 64 % 64),
      Fin.ofNat (128 + n % 64), ?_, ?_⟩)
    · simp only [Valid3, Fin.ofNat]; omega
    · simp only [val3, Fin.ofNat]; omega

theorem IsWhite_le (r : Int) (h : IsWhite r) : 9 ≤ r ∧ r ≤ 0x3000 := by
  have := (IsSpace_iff r ⟨h.1, h.2.1⟩).mp h.2.2
  omega

theorem IsSpace_RuneError : IsSpace RuneError = false := by decide

theorem space_decode (r : Int) (h : IsWhite r) (rest : GoString) :
    DecodeRuneInString (EncodeRune r ++ rest) = (r, (EncodeRune r).length) ∧
    1 ≤ (EncodeRune r).length := by
  have hr := IsWhite_le r h
  rcases rune_bytes r (by omega) (by omega) with ⟨b, hb, rfl⟩ | ⟨s0, s1, hv, rfl⟩ |
    ⟨s0, s1, s2, hv, rfl⟩
  · rw [Encode_val1 b hb]
    exact ⟨Decode_ascii b rest hb, by simp⟩
  · rw [Encode_val2 s0 s1 hv]
    exact ⟨Decode_two s0 s1 rest hv, by simp⟩
  · rw [Encode_val3 s0 s1 s2 hv]
    exact ⟨Decode_three s0 s1 s2 rest hv, by simp⟩

theorem decode_space (s : GoString) (h : IsSpace (DecodeRuneInString s).1 = true) :
    IsWhite (DecodeRuneInString s).1 ∧
    s = EncodeRune (DecodeRuneInString s).1 ++ s.drop (DecodeRuneInString s).2 ∧
    (DecodeRuneInString s).2 = (EncodeRune (DecodeRuneInString s).1).length := by
  cases s with
  | nil => simp [DecodeRuneInString, IsSpace_RuneError] at h
  | cons s0 t =>
    rcases Decode_cases s0 t with ⟨hb, hd⟩ | ⟨_, hd⟩ | ⟨s1, t1, rfl, hv⟩ | ⟨s1, s2, t2, rfl, hv⟩ |
      ⟨s1, s2, s3, t3, rfl, hv⟩
    · rw [hd] at h ⊢
      refine ⟨⟨by simp only; omega, by simp only; omega, h⟩, ?_, ?_⟩
      · simp [Encode_val1 s0 hb]
      · simp [Encode_val1 s0 hb]
    · rw [hd] at h
      simp [IsSpace_RuneError] at h
    · rw [Decode_two s0 s1 t1 hv] at h ⊢
      have hv' := hv
      obtain ⟨h1, h2, h3, h4⟩ := hv'
      refine ⟨⟨by simp only [val2]; omega, by simp only [val2]; omega, h⟩, ?_, ?_⟩
      · simp [Encode_val2 s0 s1 hv]
      · simp [Encode_val2 s0 s1 hv]
    · rw [Decode_three s0 s1 s2 t2 hv] at h ⊢
      have hv' := hv
      obtain ⟨h1, h2, h3, h4, h5, h6, h7, h8⟩ := hv'
      refine ⟨⟨by simp only [val3]; omega, by simp only [val3]; omega, h⟩, ?_, ?_⟩
      · simp [Encode_val3 s0 s1 s2 hv]
      · simp [Encode_val3 s0 s1 s2 hv]
    · rw [Decode_four s0 s1 s2 s3 t3 hv] at h
      obtain ⟨h1, h2, h3, h4, h5, h6, h7, h8, h9, h10⟩ := hv
      have hbig : (0x10000 : Int) ≤ val4 s0 s1 s2 s3 ∧ val4 s0 s1 s2 s3 < 2 ^ 31 := by
        simp only [val4]; omega
      generalize val4 s0 s1 s2 s3 = v at h hbig
      have hs := (IsSpace_iff v ⟨by omega, hbig.2⟩).mp h
      omega

theorem Decode_width (s0 : Byte) (t : GoString) :
    1 ≤ (DecodeRuneInString (s0 :: t)).2 ∧ (DecodeRuneInString (s0 :: t)).2 ≤ t.length + 1 := by
  rcases Decode_cases s0 t with ⟨hb, hd⟩ | ⟨_, hd⟩ | ⟨s1, t1, rfl, hv⟩ | ⟨s1, s2, t2, rfl, hv⟩ |
    ⟨s1, s2, s3, t3, rfl, hv⟩
  · rw [hd]; simp
  · rw [hd]; simp
  · rw [Decode_two s0 s1 t1 hv]; simp
  · rw [Decode_three s0 s1 s2 t2 hv]; simp
  · rw [Decode_four s0 s1 s2 s3 t3 hv]; simp

/-- A decoding of width two or more reads a well-formed sequence: it starts
with a byte that is not ASCII and is not changed by what follows the string. -/
theorem Decode_append (s0 : Byte) (t rest : GoString)
    (h : 2 ≤ (DecodeRuneInString (s0 :: t)).2) :
    DecodeRuneInString (s0 :: t ++ rest) = DecodeRuneInString (s0 :: t) ∧ 0x80 ≤ s0.val := by
  rcases Decode_cases s0 t with ⟨hb, hd⟩ | ⟨_, hd⟩ | ⟨s1, t1, rfl, hv⟩ | ⟨s1, s2, t2, rfl, hv⟩ |
    ⟨s1, s2, s3, t3, rfl, hv⟩
  · rw [hd] at h; simp at h
  · rw [hd] at h; simp at h
  · refine ⟨?_, by unfold Valid2 at hv; omega⟩
    rw [Decode_two s0 s1 t1 hv]
    exact Decode_two s0 s1 (t1 ++ rest) hv
  · refine ⟨?_, by unfold Valid3 at hv; omega⟩
    rw [Decode_three s0 s1 s2 t2 hv]
    exact Decode_three s0 s1 s2 (t2 ++ rest) hv
  · refine ⟨?_, by unfold Valid4 at hv; omega⟩
    rw [Decode_four s0 s1 s2 s3 t3 hv]
    exact Decode_four s0 s1 s2 s3 (t3 ++ rest) hv

/-- A byte that is not ASCII, followed by nothing or by a byte that is not a
continuation byte, decodes with width one. -/
theorem Decode_width_one (s0 : Byte) (t : GoString) (h0 : 0x80 ≤ s0.val)
    (ht : ∀ c ∈ t.head?, c.val < 0x80 ∨ 0xBF < c.val) :
    (DecodeRuneInString (s0 :: t)).2 = 1 := by
  rcases Decode_cases s0 t with ⟨hb, hd⟩ | ⟨_, hd⟩ | ⟨s1, t1, rfl, hv⟩ | ⟨s1, s2, t2, rfl, hv⟩ |
    ⟨s1, s2, s3, t3, rfl, hv⟩
  · omega
  · rw [hd]
  · have := ht s1 (by simp); unfold Valid2 at hv; omega
  · have := ht s1 (by simp); unfold Valid3 at hv; omega
  · have := ht s1 (by simp); unfold Valid4 at hv; omega

set_option maxRecDepth 100000 in
theorem RuneStart_iff : ∀ b : Byte, RuneStart b = true ↔ ¬ (0x80 ≤ b.val ∧ b.val ≤ 0xBF) := by
  decide

theorem lastRuneScan_le (s : GoString) (lim : Int) (fuel : Nat) (start : Int) :
    lastRuneScan s lim fuel start ≤ start := by
  induction fuel generalizing start with
  | zero => simp [lastRuneScan]
  | succ fuel ih =>
    unfold lastRuneScan
    split_ifs
    · exact le_refl _
    · have := ih (start - 1); omega
    · exact le_refl _

theorem DecodeLast_cases (init : GoString) (b : Byte) :
    (b.val < 0x80 ∧ DecodeLastRuneInString (init ++ [b]) = ((b.val : Int), 1)) ∨
    (0x80 ≤ b.val ∧ DecodeLastRuneInString (init ++ [b]) = (RuneError, 1)) ∨
    (0x80 ≤ b.val ∧ ∃ k, k ≤ init.length ∧
      DecodeLastRuneInString (init ++ [b]) = DecodeRuneInString ((init ++ [b]).drop k) ∧
      (DecodeRuneInString ((init ++ [b]).drop k)).2 = init.length + 1 - k) := by
  have hlen : (init ++ [b]).length = init.length + 1 := by simp
  have hlast : (init ++ [b]).getD (init.length + 1 - 1) 0 = b := by
    simp [List.getD_append_right]
  by_cases hb : b.val < 0x80
  · left
    refine ⟨hb, ?_⟩
    simp only [DecodeLastRuneInString, hlen, hlast, RuneSelf]
    simp [hb]
  · right
    have hb' : 0x80 ≤ b.val := by omega
    simp only [DecodeLastRuneInString, hlen, hlast, RuneSelf, slice]
    simp only [Nat.succ_ne_zero, if_false, hb]
    rw [← hlen, List.take_length, hlen]
    generalize hst : lastRuneScan (init ++ [b])
      (if ((init.length + 1 : Nat) : Int) - UTFMax < 0 then 0
        else ((init.length + 1 : Nat) : Int) - UTFMax) UTFMax
      (((init.length + 1 : Nat) : Int) - 1 - 1) = st
    have hle : st ≤ ((init.length + 1 : Nat) : Int) - 1 - 1 := by
      rw [← hst]; exact lastRuneScan_le _ _ _ _
    split_ifs with h1 h2 h2
    · exact Or.inl ⟨hb', rfl⟩
    · refine Or.inr ⟨hb', 0, by omega, rfl, ?_⟩
      simp only [Int.toNat_zero, List.drop_zero] at h2 ⊢
      omega
    · exact Or.inl ⟨hb', rfl⟩
    · refine Or.inr ⟨hb', st.toNat, by omega, rfl, ?_⟩
      omega

theorem DecodeLast_width (init : GoString) (b : Byte) :
    1 ≤ (DecodeLastRuneInString (init ++ [b])).2 ∧
    (DecodeLastRuneInString (init ++ [b])).2 ≤ init.length + 1 := by
  rcases DecodeLast_cases init b with ⟨_, h⟩ | ⟨_, h⟩ | ⟨_, k, hk, h, hw⟩
  · rw [h]; simp
  · rw [h]; simp
  · rw [h, hw]; omega

theorem decodeLast_space (init : GoString) (b : Byte)
    (h : IsSpace (DecodeLastRuneInString (init ++ [b])).1 = true) :
    IsWhite (DecodeLastRuneInString (init ++ [b])).1 ∧
    (∃ pre, init ++ [b] = pre ++ EncodeRune (DecodeLastRuneInString (init ++ [b])).1) ∧
    (DecodeLastRuneInString (init ++ [b])).2
      = (EncodeRune (DecodeLastRuneInString (init ++ [b])).1).length := by
  rcases DecodeLast_cases init b with ⟨hb, hd⟩ | ⟨_, hd⟩ | ⟨_, k, hk, hd, hw⟩
  · rw [hd] at h ⊢
    refine ⟨⟨by simp only; omega, by simp only; omega, h⟩, ⟨init, ?_⟩, ?_⟩
    · simp [Encode_val1 b hb]
    · simp [Encode_val1 b hb]
  · rw [hd] at h
    simp [IsSpace_RuneError] at h
  · rw [hd] at h ⊢
    obtain ⟨h1, h2, h3⟩ := decode_space _ h
    refine ⟨h1, ⟨(init ++ [b]).take k, ?_⟩, h3⟩
    have hlen : ((init ++ [b]).drop k).length = init.length + 1 - k := by simp
    have hnil : ((init ++ [b]).drop k).drop (DecodeRuneInString ((init ++ [b]).drop k)).2 = [] := by
      apply List.drop_eq_nil_of_le
      rw [hlen, hw]
    rw [hnil, List.append_nil] at h2
    rw [← h2, List.take_append_drop]

/-- The end of the cut of `TrimRightFunc`: going forward from the start of the
last rune of `u`, by its width, leads back to the end of `u`, when what
follows `u` does not start with a continuation byte. -/
theorem trim_end_index (init : GoString) (b : Byte) (rest : GoString)
    (hrest : ∀ c ∈ rest.head?, c.val < 0x80 ∨ 0xBF < c.val) :
    (if 0x80 ≤ ((init ++ [b] ++ rest).getD
          (init.length + 1 - (DecodeLastRuneInString (init ++ [b])).2) 0).val then
        init.length + 1 - (DecodeLastRuneInString (init ++ [b])).2 +
          (DecodeRuneInString ((init ++ [b] ++ rest).drop
            (init.length + 1 - (DecodeLastRuneInString (init ++ [b])).2))).2
      else init.length + 1 - (DecodeLastRuneInString (init ++ [b])).2 + 1)
      = init.length + 1 := by
  have hget : (init ++ [b] ++ rest).getD init.length 0 = b := by
    rw [List.append_assoc, List.getD_append_right _ _ _ _ (le_refl _)]; simp
  have hdrop : (init ++ [b] ++ rest).drop init.length = b :: rest := by
    simp [List.append_assoc]
  rcases DecodeLast_cases init b with ⟨hb, hd⟩ | ⟨hb, hd⟩ | ⟨hb, k, hk, hd, hw⟩
  · rw [hd]
    simp only [Nat.add_sub_cancel, hget]
    rw [if_neg (by omega)]
  · rw [hd]
    simp only [Nat.add_sub_cancel, hget, hdrop]
    rw [if_pos hb, Decode_width_one b rest hb hrest]
  · rw [hd, hw]
    have hj : init.length + 1 - (init.length + 1 - k) = k := by omega
    rw [hj]
    have hsplit : (init ++ [b] ++ rest).drop k = (init ++ [b]).drop k ++ rest := by
      rw [List.drop_append_of_le_length (by simp; omega)]
    have hgetk : (init ++ [b] ++ rest).getD k 0 = ((init ++ [b]).drop k ++ rest).getD 0 0 := by
      rw [← hsplit]; simp [List.getD_eq_getElem?_getD]
    cases ha : (init ++ [b]).drop k with
    | nil =>
      have : ((init ++ [b]).drop k).length = init.length + 1 - k := by simp
      rw [ha] at this
      simp at this
      omega
    | cons a0 at_ =>
      rw [ha] at hw
      rw [hsplit, hgetk, ha]
      simp only [List.cons_append, List.getD_cons_zero]
      have hlen : (a0 :: at_).length = init.length + 1 - k := by rw [← ha]; simp
      by_cases h2 : 2 ≤ (DecodeRuneInString (a0 :: at_)).2
      · obtain ⟨e1, e2⟩ := Decode_append a0 at_ rest h2
        rw [List.cons_append] at e1
        rw [if_pos e2, e1, hw]
        omega
      · have hw1 : at_ = [] := by
          have := hw ▸ hlen
          simp only [List.length_cons] at this
          have : at_.length = 0 := by omega
          exact List.length_eq_zero.mp this
        subst hw1
        have hk' : k = init.length := by simp at hlen; omega
        have hab : a0 = b := by
          rw [hk'] at ha
          simp at ha
          exact ha.symm
        subst hab
        rw [if_pos hb, List.nil_append, Decode_width_one a0 rest hb hrest, hk']

theorem getD_append_at (init tail : GoString) (k : Nat) :
    (init ++ tail).getD (init.length + k) 0 = tail.getD k 0 := by
  rw [List.getD_append_right _ _ _ _ (Nat.le_add_right _ _), Nat.add_sub_cancel_left]

theorem DecodeLast_ascii (init : GoString) (b : Byte) (hb : b.val < 0x80) :
    DecodeLastRuneInString (init ++ [b]) = ((b.val : Int), 1) := by
  rcases DecodeLast_cases init b with ⟨_, h⟩ | ⟨h, _⟩ | ⟨h, _⟩
  · exact h
  · omega
  · omega

theorem DecodeLast_two (init : GoString) (s0 s1 : Byte) (hv : Valid2 s0 s1) :
    DecodeLastRuneInString (init ++ [s0, s1]) = (val2 s0 s1, 2) := by
  have hv' := hv
  obtain ⟨h1, h2, h3, h4⟩ := hv'
  have hr0 : RuneStart s0 = true := (RuneStart_iff s0).mpr (by omega)
  have hlen : (init ++ [s0, s1]).length = init.length + 2 := by simp
  have g1 : (init ++ [s0, s1]).getD (init.length + 1) 0 = s1 := by
    rw [getD_append_at]; rfl
  have g0 : (init ++ [s0, s1]).getD init.length 0 = s0 := by
    have := getD_append_at init [s0, s1] 0
    simpa using this
  have hs1 : ¬ (s1.val < 0x80) := by omega
  simp only [DecodeLastRuneInString, hlen, RuneSelf, UTFMax, slice]
  have e1 : init.length + 2 - 1 = init.length + 1 := by omega
  have e2 : (((init.length + 2 : Nat) : Int) - 1 - 1).toNat = init.length := by omega
  have e3 : ((init.length + 2 : Nat) : Int) - 1 - 1 = (init.length : Int) := by omega
  rw [e1, g1]
  simp only [Nat.succ_ne_zero, if_false, hs1]
  rw [e3]
  have hscan : lastRuneScan (init ++ [s0, s1])
      (if ((init.length + 2 : Nat) : Int) - ((4 : Nat) : Int) < 0 then 0
        else ((init.length + 2 : Nat) : Int) - ((4 : Nat) : Int)) 4 (init.length : Int)
      = (init.length : Int) := by
    unfold lastRuneScan
    have : (if ((init.length + 2 : Nat) : Int) - ((4 : Nat) : Int) < 0 then 0
        else ((init.length + 2 : Nat) : Int) - ((4 : Nat) : Int)) ≤ (init.length : Int) := by
      split_ifs <;> omega
    rw [if_pos this, Int.toNat_ofNat, g0, hr0]
    rfl
  rw [hscan]
  have hneg : ¬ ((init.length : Int) < 0) := by omega
  simp only [hneg, if_false, Int.toNat_ofNat]
  rw [← hlen, List.take_length, List.drop_left, Decode_two s0 s1 [] hv, hlen]
  simp

theorem DecodeLast_three (init : GoString) (s0 s1 s2 : Byte) (hv : Valid3 s0 s1 s2) :
    DecodeLastRuneInString (init ++ [s0, s1, s2]) = (val3 s0 s1 s2, 3) := by
  have hv' := hv
  obtain ⟨h1, h2, h3, h4, h5, h6, h7, h8⟩ := hv'
  have hr0 : RuneStart s0 = true := (RuneStart_iff s0).mpr (by omega)
  have hr1 : RuneStart s1 = false := by
    have := (RuneStart_iff s1).not.mpr (by simp only [not_not]; omega)
    simpa using this
  have hlen : (init ++ [s0, s1, s2]).length = init.length + 3 := by simp
  have g2 : (init ++ [s0, s1, s2]).getD (init.length + 2) 0 = s2 := by
    rw [getD_append_at]; rfl
  have g1 : (init ++ [s0, s1, s2]).getD (init.length + 1) 0 = s1 := by
    rw [getD_append_at]; rfl
  have g0 : (init ++ [s0, s1, s2]).getD init.length 0 = s0 := by
    have := getD_append_at init [s0, s1, s2] 0
    simpa using this
  have hs2 : ¬ (s2.val < 0x80) := by omega
  simp only [DecodeLastRuneInString, hlen, RuneSelf, UTFMax, slice]
  have e1 : init.length + 3 - 1 = init.length + 2 := by omega
  have e3 : ((init.length + 3 : Nat) : Int) - 1 - 1 = ((init.length + 1 : Nat) : Int) := by omega
  rw [e1, g2]
  simp only [Nat.succ_ne_zero, if_false, hs2]
  rw [e3]
  have hscan : lastRuneScan (init ++ [s0, s1, s2])
      (if ((init.length + 3 : Nat) : Int) - ((4 : Nat) : Int) < 0 then 0
        else ((init.length + 3 : Nat) : Int) - ((4 : Nat) : Int)) 4
        ((init.length + 1 : Nat) : Int)
      = (init.length : Int) := by
    have hl1 : (if ((init.length + 3 : Nat) : Int) - ((4 : Nat) : Int) < 0 then 0
        else ((init.length + 3 : Nat) : Int) - ((4 : Nat) : Int))
          ≤ ((init.length + 1 : Nat) : Int) := by
      split_ifs <;> omega
    have hl0 : (if ((init.length + 3 : Nat) : Int) - ((4 : Nat) : Int) < 0 then 0
        else ((init.length + 3 : Nat) : Int) - ((4 : Nat) : Int)) ≤ (init.length : Int) := by
      split_ifs <;> omega
    have e4 : ((init.length + 1 : Nat) : Int) - 1 = (init.length : Int) := by omega
    unfold lastRuneScan
    rw [if_pos hl1, Int.toNat_ofNat, g1, hr1]
    simp only [Bool.false_eq_true, if_false]
    rw [e4]
    unfold lastRuneScan
    rw [if_pos hl0, Int.toNat_ofNat, g0, hr0]
    rfl
  rw [hscan]
  have hneg : ¬ ((init.length : Int) < 0) := by omega
  simp only [hneg, if_false, Int.toNat_ofNat]
  rw [← hlen, List.take_length, List.drop_left, Decode_three s0 s1 s2 [] hv, hlen]
  simp

theorem space_decodeLast (r : Int) (h : IsWhite r) (init : GoString) :
    DecodeLastRuneInString (init ++ EncodeRune r) = (r, (EncodeRune r).length) := by
  have hr := IsWhite_le r h
  rcases rune_bytes r (by omega) (by omega) with ⟨b, hb, rfl⟩ | ⟨s0, s1, hv, rfl⟩ |
    ⟨s0, s1, s2, hv, rfl⟩
  · rw [Encode_val1 b hb]
    exact DecodeLast_ascii init b hb
  · rw [Encode_val2 s0 s1 hv]
    exact DecodeLast_two init s0 s1 hv
  · rw [Encode_val3 s0 s1 s2 hv]
    exact DecodeLast_three init s0 s1 s2 hv

theorem AllSpace_nil : AllSpace [] := ⟨[], by simp, by simp⟩

theorem AllSpace_append {a b : GoString} (ha : AllSpace a) (hb : AllSpace b) :
    AllSpace (a ++ b) := by
  obtain ⟨ra, h1, rfl⟩ := ha
  obtain ⟨rb, h2, rfl⟩ := hb
  refine ⟨ra ++ rb, ?_, by simp [List.flatMap_append]⟩
  intro r hr
  rcases List.mem_append.mp hr with h | h
  · exact h1 r h
  · exact h2 r h

theorem AllSpace_encode {r : Int} (h : IsWhite r) : AllSpace (EncodeRune r) :=
  ⟨[r], by simpa using h, by simp [List.flatMap]⟩

theorem encode_head (r : Int) (h : IsWhite r) :
    ∃ c t, EncodeRune r = c :: t ∧ (c.val < 0x80 ∨ 0xBF < c.val) := by
  have hr := IsWhite_le r h
  rcases rune_bytes r (by omega) (by omega) with ⟨b, hb, rfl⟩ | ⟨s0, s1, hv, rfl⟩ |
    ⟨s0, s1, s2, hv, rfl⟩
  · exact ⟨b, [], Encode_val1 b hb, Or.inl hb⟩
  · exact ⟨s0, [s1], Encode_val2 s0 s1 hv, by unfold Valid2 at hv; omega⟩
  · exact ⟨s0, [s1, s2], Encode_val3 s0 s1 s2 hv, by unfold Valid3 at hv; omega⟩

theorem AllSpace_head (s : GoString) (h : AllSpace s) :
    ∀ c ∈ s.head?, c.val < 0x80 ∨ 0xBF < c.val := by
  obtain ⟨rs, h1, rfl⟩ := h
  induction rs with
  | nil => simp
  | cons r rs ih =>
    obtain ⟨c, t, hc, hc'⟩ := encode_head r (h1 r (List.mem_cons_self _ _))
    intro c' hc''
    simp only [List.flatMap_cons, hc, List.cons_append, List.head?_cons, Option.mem_def,
      Option.some.injEq] at hc''
    rw [← hc'']
    exact hc'

theorem not_BeginsWithSpace_nil : ¬ BeginsWithSpace [] := by
  rintro ⟨r, rest, h, he⟩
  obtain ⟨c, t, hc, _⟩ := encode_head r h
  rw [hc] at he
  simp at he

theorem not_EndsWithSpace_nil : ¬ EndsWithSpace [] := by
  rintro ⟨r, init, h, he⟩
  obtain ⟨c, t, hc, _⟩ := encode_head r h
  rw [hc] at he
  simp at he

theorem not_BeginsWithSpace_of_decode (s : GoString)
    (h : IsSpace (DecodeRuneInString s).1 = false) : ¬ BeginsWithSpace s := by
  rintro ⟨r, rest, hw, rfl⟩
  rw [(space_decode r hw rest).1] at h
  simp only at h
  rw [hw.2.2] at h
  exact absurd h (by simp)

theorem not_EndsWithSpace_of_decodeLast (s : GoString)
    (h : IsSpace (DecodeLastRuneInString s).1 = false) : ¬ EndsWithSpace s := by
  rintro ⟨r, init, hw, rfl⟩
  rw [space_decodeLast r hw init] at h
  simp only at h
  rw [hw.2.2] at h
  exact absurd h (by simp)

theorem asciiSpace_iff (c : Byte) (hc : c.val < 0x80) :
    asciiSpace c = true ↔ IsSpace (c.val : Int) = true := by
  rw [IsSpace_iff _ ⟨by omega, by omega⟩]
  simp only [asciiSpace, decide_eq_true_eq]
  omega

theorem IsWhite_ascii (c : Byte) (hc : c.val < 0x80) (h : asciiSpace c = true) :
    IsWhite (c.val : Int) :=
  ⟨by omega, by omega, (asciiSpace_iff c hc).mp h⟩

theorem indexFunc_spec (fuel : Nat) (s : GoString) (i : Nat) (hfuel : s.length ≤ fuel) :
    (indexFunc IsSpace false fuel s i = -1 ∧ AllSpace s) ∨
    (∃ k, indexFunc IsSpace false fuel s i = ((i + k : Nat) : Int) ∧ k ≤ s.length ∧
      AllSpace (s.take k) ∧ ¬ BeginsWithSpace (s.drop k)) := by
  induction fuel generalizing s i with
  | zero =>
    have : s = [] := List.length_eq_zero.mp (by omega)
    subst this
    exact Or.inl ⟨by simp [indexFunc], AllSpace_nil⟩
  | succ fuel ih =>
    cases s with
    | nil => exact Or.inl ⟨by simp [indexFunc], AllSpace_nil⟩
    | cons c cs =>
      simp only [indexFunc]
      by_cases hsp : IsSpace (DecodeRuneInString (c :: cs)).1 = false
      · right
        refine ⟨0, by rw [if_pos hsp]; rfl, by simp, by simpa using AllSpace_nil, ?_⟩
        simpa using not_BeginsWithSpace_of_decode _ hsp
      · have hsp' : IsSpace (DecodeRuneInString (c :: cs)).1 = true := by simpa using hsp
        obtain ⟨hw, hs, hlen⟩ := decode_space _ hsp'
        have hwd := Decode_width c cs
        rw [if_neg hsp]
        have hfuel' : ((c :: cs).drop (DecodeRuneInString (c :: cs)).2).length ≤ fuel := by
          simp only [List.length_drop, List.length_cons] at hfuel ⊢
          omega
        have htake : (c :: cs).take (DecodeRuneInString (c :: cs)).2
            = EncodeRune (DecodeRuneInString (c :: cs)).1 := by
          exact List.append_cancel_right (by rw [List.take_append_drop]; exact hs)
        rcases ih ((c :: cs).drop (DecodeRuneInString (c :: cs)).2)
          (i + (DecodeRuneInString (c :: cs)).2) hfuel' with ⟨h1, h2⟩ | ⟨k, h1, h2, h3, h4⟩
        · left
          refine ⟨h1, ?_⟩
          rw [hs]
          exact AllSpace_append (AllSpace_encode hw) h2
        · right
          refine ⟨(DecodeRuneInString (c :: cs)).2 + k, ?_, ?_, ?_, ?_⟩
          · rw [h1]; congr 1; omega
          · simp only [List.length_drop, List.length_cons] at h2 ⊢; omega
          · rw [List.take_add, htake]
            exact AllSpace_append (AllSpace_encode hw) h3
          · rw [← List.drop_drop] at *
            rwa [List.drop_drop] at h4 ⊢

theorem TrimLeftFunc_spec (s : GoString) :
    ∃ pre, s = pre ++ TrimLeftFunc s IsSpace ∧ AllSpace pre ∧
      ¬ BeginsWithSpace (TrimLeftFunc s IsSpace) := by
  simp only [TrimLeftFunc]
  rcases indexFunc_spec s.length s 0 (le_refl _) with ⟨h1, h2⟩ | ⟨k, h1, h2, h3, h4⟩
  · rw [h1]
    exact ⟨s, by simp, h2, by simpa using not_BeginsWithSpace_nil⟩
  · rw [h1]
    have hne : ¬ (((0 + k : Nat) : Int) = -1) := by omega
    rw [if_neg hne]
    simp only [Nat.zero_add, Int.toNat_ofNat]
    exact ⟨s.take k, (List.take_append_drop k s).symm, h3, h4⟩

theorem take_concat (s : GoString) (i : Nat) (h0 : 0 < i) (hi : i ≤ s.length) :
    ∃ init b, s.take i = init ++ [b] ∧ init.length + 1 = i := by
  have hne : s.take i ≠ [] := by
    intro h
    have := congrArg List.length h
    simp only [List.length_take, List.length_nil] at this
    omega
  refine ⟨(s.take i).dropLast, (s.take i).getLast hne, (List.dropLast_append_getLast hne).symm, ?_⟩
  simp only [List.length_dropLast, List.length_take]
  omega

theorem lastIndexFunc_spec (s : GoString) (fuel : Nat) (i : Nat) (hfuel : i ≤ fuel)
    (hi : i ≤ s.length) :
    (lastIndexFunc IsSpace false s fuel i = -1 ∧ AllSpace (s.take i)) ∨
    (∃ i', 0 < i' ∧ i' ≤ i ∧
      lastIndexFunc IsSpace false s fuel i
        = ((i' - (DecodeLastRuneInString (s.take i')).2 : Nat) : Int) ∧
      IsSpace (DecodeLastRuneInString (s.take i')).1 = false ∧
      AllSpace ((s.take i).drop i')) := by
  induction fuel generalizing i with
  | zero =>
    have : i = 0 := by omega
    subst this
    exact Or.inl ⟨by simp [lastIndexFunc], by simpa using AllSpace_nil⟩
  | succ fuel ih =>
    simp only [lastIndexFunc, slice, List.drop_zero]
    by_cases h0 : 0 < i
    · rw [if_pos h0]
      by_cases hsp : IsSpace (DecodeLastRuneInString (s.take i)).1 = false
      · rw [if_pos hsp]
        right
        refine ⟨i, h0, le_refl _, rfl, hsp, ?_⟩
        rw [List.drop_eq_nil_of_le (by simp)]
        exact AllSpace_nil
      · rw [if_neg hsp]
        have hsp' : IsSpace (DecodeLastRuneInString (s.take i)).1 = true := by simpa using hsp
        obtain ⟨init, b, hib, hil⟩ := take_concat s i h0 hi
        have hwd := DecodeLast_width init b
        rw [← hib] at hwd
        have hds := decodeLast_space init b (by rw [← hib]; exact hsp')
        rw [← hib] at hds
        obtain ⟨hw, ⟨pre, hpre⟩, hlen⟩ := hds
        have hprelen : pre.length = i - (DecodeLastRuneInString (s.take i)).2 := by
          have := congrArg List.length hpre
          simp only [List.length_take, List.length_append] at this
          omega
        have hpre' : s.take (i - (DecodeLastRuneInString (s.take i)).2) = pre := by
          have h2 := congrArg (List.take pre.length) hpre
          rw [List.take_left, List.take_take, hprelen, Nat.min_eq_left (by omega)] at h2
          exact h2
        rcases ih (i - (DecodeLastRuneInString (s.take i)).2) (by omega) (by omega) with
          ⟨h1, h2⟩ | ⟨i', h1, h2, h3, h4, h5⟩
        · left
          refine ⟨h1, ?_⟩
          rw [hpre, ← hpre']
          exact AllSpace_append h2 (AllSpace_encode hw)
        · right
          refine ⟨i', h1, by omega, h3, h4, ?_⟩
          rw [hpre, List.drop_append_of_le_length (by omega), ← hpre']
          exact AllSpace_append h5 (AllSpace_encode hw)
    · rw [if_neg h0]
      have : i = 0 := by omega
      subst this
      exact Or.inl ⟨rfl, by simpa using AllSpace_nil⟩

theorem TrimRightFunc_spec (s : GoString) :
    ∃ post, s = TrimRightFunc s IsSpace ++ post ∧ AllSpace post ∧
      ¬ EndsWithSpace (TrimRightFunc s IsSpace) := by
  simp only [TrimRightFunc, slice, List.drop_zero]
  rcases lastIndexFunc_spec s s.length s.length (le_refl _) (le_refl _) with
    ⟨h1, h2⟩ | ⟨i', h1, h2, h3, h4, h5⟩
  · rw [h1]
    rw [List.take_length] at h2
    have hc : ¬ ((0 : Int) ≤ -1 ∧ RuneSelf ≤ (s.getD (Int.toNat (-1)) 0).val) := by omega
    rw [if_neg hc]
    exact ⟨s, by simp, h2, by simpa using not_EndsWithSpace_nil⟩
  · rw [h3]
    rw [List.take_length] at h5
    obtain ⟨init, b, hib, hil⟩ := take_concat s i' h1 h2
    have hs : init ++ [b] ++ s.drop i' = s := by rw [← hib, List.take_append_drop]
    have hkey := trim_end_index init b (s.drop i') (AllSpace_head _ h5)
    rw [hs, ← hib, hil] at hkey
    have hend : (if (0 : Int) ≤ ((i' - (DecodeLastRuneInString (s.take i')).2 : Nat) : Int) ∧
          RuneSelf ≤ (s.getD (Int.toNat
            ((i' - (DecodeLastRuneInString (s.take i')).2 : Nat) : Int)) 0).val then
        ((i' - (DecodeLastRuneInString (s.take i')).2 : Nat) : Int) +
          ((DecodeRuneInString (s.drop (Int.toNat
            ((i' - (DecodeLastRuneInString (s.take i')).2 : Nat) : Int)))).2 : Int)
        else ((i' - (DecodeLastRuneInString (s.take i')).2 : Nat) : Int) + 1).toNat = i' := by
      simp only [Int.toNat_ofNat, RuneSelf]
      by_cases hc : 0x80 ≤ (s.getD (i' - (DecodeLastRuneInString (s.take i')).2) 0).val
      · rw [if_pos hc] at hkey
        rw [if_pos ⟨by omega, hc⟩]
        omega
      · rw [if_neg hc] at hkey
        rw [if_neg (fun h => hc h.2)]
        omega
    rw [hend]
    exact ⟨s.drop i', (List.take_append_drop i' s).symm, h5,
      not_EndsWithSpace_of_decodeLast _ h4⟩

theorem TrimFunc_spec (s : GoString) :
    ∃ pre post, s = pre ++ TrimFunc s IsSpace ++ post ∧ AllSpace pre ∧ AllSpace post ∧
      ¬ BeginsWithSpace (TrimFunc s IsSpace) ∧ ¬ EndsWithSpace (TrimFunc s IsSpace) := by
  obtain ⟨pre, h1, h2, h3⟩ := TrimLeftFunc_spec s
  obtain ⟨post, h4, h5, h6⟩ := TrimRightFunc_spec (TrimLeftFunc s IsSpace)
  refine ⟨pre, post, ?_, h2, h5, ?_, h6⟩
  · simp only [TrimFunc]
    rw [List.append_assoc, ← h4, ← h1]
  · rintro ⟨r, rest, hw, he⟩
    apply h3
    refine ⟨r, rest ++ post, hw, ?_⟩
    simp only [TrimFunc] at he
    rw [h4, he, List.append_assoc]

theorem not_IsSpace_of_not_asciiSpace (c : Byte) (hc : c.val < 0x80)
    (h : ¬ asciiSpace c = true) : IsSpace (c.val : Int) = false := by
  have := (asciiSpace_iff c hc).not.mp h
  simpa using this

theorem trimSpaceStop_spec (rev : GoString) :
    ∃ post, rev.reverse = trimSpaceStop rev ++ post ∧ AllSpace post ∧
      ¬ EndsWithSpace (trimSpaceStop rev) := by
  induction rev with
  | nil => exact ⟨[], by simp [trimSpaceStop], AllSpace_nil, by
      simpa [trimSpaceStop] using not_EndsWithSpace_nil⟩
  | cons c rest ih =>
    simp only [trimSpaceStop, RuneSelf]
    by_cases h80 : 0x80 ≤ c.val
    · rw [if_pos h80]
      exact TrimRightFunc_spec _
    · rw [if_neg h80]
      have hc : c.val < 0x80 := by omega
      by_cases hsp : asciiSpace c = true
      · rw [if_pos hsp]
        obtain ⟨post, h1, h2, h3⟩ := ih
        refine ⟨post ++ [c], ?_, ?_, h3⟩
        · rw [List.reverse_cons, h1, List.append_assoc]
        · have := AllSpace_encode (IsWhite_ascii c hc hsp)
          rw [Encode_val1 c hc] at this
          exact AllSpace_append h2 this
      · rw [if_neg hsp]
        refine ⟨[], by simp, AllSpace_nil, ?_⟩
        apply not_EndsWithSpace_of_decodeLast
        rw [List.reverse_cons, DecodeLast_ascii _ c hc]
        exact not_IsSpace_of_not_asciiSpace c hc hsp

theorem TrimSpace_spec (s : GoString) :
    ∃ pre post, s = pre ++ TrimSpace s ++ post ∧ AllSpace pre ∧ AllSpace post ∧
      ¬ BeginsWithSpace (TrimSpace s) ∧ ¬ EndsWithSpace (TrimSpace s) := by
  induction s with
  | nil =>
    exact ⟨[], [], by simp [TrimSpace, trimSpaceStop], AllSpace_nil, AllSpace_nil,
      by simpa [TrimSpace, trimSpaceStop] using not_BeginsWithSpace_nil,
      by simpa [TrimSpace, trimSpaceStop] using not_EndsWithSpace_nil⟩
  | cons c cs ih =>
    simp only [TrimSpace, RuneSelf]
    by_cases h80 : 0x80 ≤ c.val
    · rw [if_pos h80]
      exact TrimFunc_spec _
    · rw [if_neg h80]
      have hc : c.val < 0x80 := by omega
      by_cases hsp : asciiSpace c = true
      · rw [if_pos hsp]
        obtain ⟨pre, post, h1, h2, h3, h4, h5⟩ := ih
        refine ⟨[c] ++ pre, post, ?_, ?_, h3, h4, h5⟩
        · conv_lhs => rw [h1]
          simp
        · have := AllSpace_encode (IsWhite_ascii c hc hsp)
          rw [Encode_val1 c hc] at this
          exact AllSpace_append this h2
      · rw [if_neg hsp]
        obtain ⟨post, h1, h2, h3⟩ := trimSpaceStop_spec (c :: cs).reverse
        rw [List.reverse_reverse] at h1
        refine ⟨[], post, by simpa using h1, AllSpace_nil, h2, ?_, h3⟩
        rintro ⟨r, rest, hw, he⟩
        have hd := not_BeginsWithSpace_of_decode (c :: cs)
          (by rw [Decode_ascii c cs hc]; exact not_IsSpace_of_not_asciiSpace c hc hsp)
        apply hd
        exact ⟨r, rest ++ post, hw, by rw [h1, he, List.append_assoc]⟩

/-- C8: in a round that posts, the text handed to `sendMessageToGroup` is the
first alternative of the completion with leading and trailing white space
trimmed: the alternative is `pre ++ text ++ post` where `pre` and `post` are
made of white-space characters only, and the text neither begins nor ends
with a white-space character. -/
theorem loopBody_posts_trimmed (cfg : Config) (lastSeen B : Group) (ch : CompletionChoice)
    (rest : List CompletionChoice) (now : Int) (p : PostReply)
    (h1 : List.Lex (· < ·) lastSeen.id B.id)
    (h2 : ¬ cfg.chatbot_name <:+: B.Response.Messages.Preview.Nickname)
    (h3 : cfg.trigger_word <:+: B.Response.Messages.Preview.Text) :
    (loopBody cfg lastSeen ⟨.ok B, .ok ⟨ch :: rest⟩, now, p⟩).effects.filter Effect.isPost
      = (sendMessageToGroup cfg.groupId cfg.token (TrimSpace ch.Text) now p).1 ∧
    ∃ pre post, ch.Text = pre ++ TrimSpace ch.Text ++ post ∧ AllSpace pre ∧ AllSpace post ∧
      ¬ BeginsWithSpace (TrimSpace ch.Text) ∧ ¬ EndsWithSpace (TrimSpace ch.Text) := by
  refine ⟨?_, TrimSpace_spec ch.Text⟩
  rw [loopBody_ok, (stringGt_iff_lex _ _).mpr h1, (Contains_eq_false_iff _ _).mpr h2,
    (Contains_iff _ _).mpr h3]
  cases p <;> simp [sendMessageToGroup, Effect.isPost]

/-- C8, at a concrete round: the completion " ok \n" is posted as "ok". -/
theorem loopBody_posts_trimmed_witness :
    ((loopBody ⟨lit "t", lit "7", [], lit "Marv", lit "!marv"⟩ (snapshot (lit "100") [] [])
        ⟨.ok (snapshot (lit "101") (lit "Alice") (lit "!marv hi")),
          .ok ⟨[⟨lit " ok \n"⟩]⟩, 5, .ok⟩).effects.filter Effect.isPost
      = (sendMessageToGroup (lit "7") (lit "t") (TrimSpace (lit " ok \n")) 5 .ok).1 ∧
    ∃ pre post, lit " ok \n" = pre ++ TrimSpace (lit " ok \n") ++ post ∧ AllSpace pre ∧
      AllSpace post ∧ ¬ BeginsWithSpace (TrimSpace (lit " ok \n")) ∧
      ¬ EndsWithSpace (TrimSpace (lit " ok \n"))) ∧
    TrimSpace (lit " ok \n") = lit "ok" :=
  ⟨loopBody_posts_trimmed ⟨lit "t", lit "7", [], lit "Marv", lit "!marv"⟩
    (snapshot (lit "100") [] []) (snapshot (lit "101") (lit "Alice") (lit "!marv hi"))
    ⟨lit " ok \n"⟩ [] 5 .ok
    ((stringGt_iff_lex _ _).mp (by decide))
    ((Contains_eq_false_iff _ _).mp (by decide))
    ((Contains_iff _ _).mp (by decide)), by decide⟩

/-- C6: `sendMessageToGroup` posts the bytes of `messageBody`, which puts the
message between the quotation marks as it is.  For the message `hi` the body
reads back as the document with that text; for the message `say "hi"` the body
is not a document of the shape at all, the string ending at the second
quotation mark; for the message of the four bytes `a\nb` the body reads back
with the three-byte text a, line feed, b. -/
theorem messageBody_not_escaped :
    (∀ groupId token message now reply,
      (sendMessageToGroup groupId token message now reply).1 =
        [.httpPost (rootURL ++ lit "/groups/" ++ groupId ++ lit "/messages?token=" ++ token)
          (lit "application/json") (messageBody now message)]) ∧
    decodeMessageBody (messageBody 1667581200123456789 (lit "hi"))
      = some (lit "1667581200123456789", lit "hi") ∧
    messageBody 1667581200123456789 (lit "say \"hi\"")
      = lit "\x7b\"message\":\x7b\"source_guid\":\"1667581200123456789\",\"text\":\"say \"hi\"\"\x7d\x7d" ∧
    decodeMessageBody (messageBody 1667581200123456789 (lit "say \"hi\"")) = none ∧
    decodeMessageBody (messageBody 1667581200123456789 (lit "a\\nb"))
      = some (lit "1667581200123456789", lit "a\nb") ∧
    lit "a\\nb" ≠ lit "a\nb" := by
  refine ⟨?_, by decide, by decide, by decide, by decide, by decide⟩
  intro groupId token message now reply
  cases reply <;> rfl

end Chatbot
